import Mathlib

/-!
Verification of the chess-play-animation-generator notation engine.

The repository's engine lives in `src/utils/FENParser.ts` (three successive
variants of the same engine are present; the claims cite the exact line
ranges, and the definitions below are faithful translations of the cited
variant) together with `NotationConverter.ts`.

JavaScript strings are modelled as `List Char` (`Str`).  A JS object used as
a string-keyed dictionary (`PositionMap`) is modelled as an association list
whose operations reproduce JS object semantics: assignment to an existing
key updates it in place (keeping its position in insertion order), a new key
is appended at the end, `delete` removes the key, and `for ... in`
enumerates keys in insertion order.
-/

set_option maxHeartbeats 4000000
set_option maxRecDepth 10000

namespace ChessEngine

/-- JS strings as lists of characters. -/
abbrev Str := List Char

/-- Shorthand turning a Lean string literal into the `Str` model. -/
def str (s : String) : Str := s.toList

/-- Whitespace characters recognised by the model (the JS sources only split
on `\s+` and trim; space, tab, CR and LF cover the inputs of interest). -/
def isWsChar (c : Char) : Bool := c = ' ' || c = '\t' || c = '\n' || c = '\r'

/-! ## Pieces (`types/notation.ts`) -/

/-- The 12-variant `StandardPiece` enum from `types/notation.ts`. -/
inductive StandardPiece where
  | WhiteKing | WhiteQueen | WhiteRook | WhiteBishop | WhiteKnight | WhitePawn
  | BlackKing | BlackQueen | BlackRook | BlackBishop | BlackKnight | BlackPawn
  deriving DecidableEq, Repr

open StandardPiece

/-- `isWhitePiece` from the typed engine (membership in the white list). -/
def isWhitePiece (p : StandardPiece) : Bool :=
  [WhiteKing, WhiteQueen, WhiteRook, WhiteBishop, WhiteKnight, WhitePawn].contains p

/-- `getPieceType`: the colour-less one-letter type tag of a piece. -/
def getPieceType (p : StandardPiece) : Str :=
  if [WhiteKing, BlackKing].contains p then str "K"
  else if [WhiteQueen, BlackQueen].contains p then str "Q"
  else if [WhiteRook, BlackRook].contains p then str "R"
  else if [WhiteBishop, BlackBishop].contains p then str "B"
  else if [WhiteKnight, BlackKnight].contains p then str "N"
  else if [WhitePawn, BlackPawn].contains p then str "P"
  else str ""

/-! ## NotationConverter.ts -/

/-- `isFrenchPiece`: membership in the `FrenchPiece` enum values
(R,D,T,F,C,P and lowercase). -/
def isFrenchPiece (c : Char) : Bool :=
  ['R', 'D', 'T', 'F', 'C', 'P', 'r', 'd', 't', 'f', 'c', 'p'].contains c

/-- The character-level French-to-standard conversion map of
`convertPieceToStandard` (identity outside the map's domain). -/
def convertPieceToStandardChar (c : Char) : Char :=
  if c = 'R' then 'K' else if c = 'r' then 'k'
  else if c = 'D' then 'Q' else if c = 'd' then 'q'
  else if c = 'T' then 'R' else if c = 't' then 'r'
  else if c = 'F' then 'B' else if c = 'f' then 'b'
  else if c = 'C' then 'N' else if c = 'c' then 'n'
  else if c = 'P' then 'P' else if c = 'p' then 'p'
  else c

/-- `isFrenchNotation`: regex `^[RDTFC]` (uppercase only) on a move token. -/
def isFrenchMove (m : Str) : Bool :=
  match m with
  | c :: _ => ['R', 'D', 'T', 'F', 'C'].contains c
  | [] => false

/-- `move.replace(/^[RDTFC]/i, convertPieceToStandard)`: rewrite a leading
French piece letter, case-insensitively. -/
def replaceLeadingFrench (m : Str) : Str :=
  match m with
  | c :: rest =>
      if ['R', 'D', 'T', 'F', 'C', 'r', 'd', 't', 'f', 'c'].contains c then
        convertPieceToStandardChar c :: rest
      else m
  | [] => []

/-- `convertMoveToStandard`: castling tokens pass through, otherwise the
leading French letter is converted. -/
def convertMoveToStandard (m : Str) : Str :=
  if m = str "O-O" || m = str "O-O-O" then m else replaceLeadingFrench m

/-! ## Generic JS string helpers -/

/-- JS `String.prototype.split` with a one-character separator: always
returns one more part than there are separators. -/
def jsSplit (sep : Char) : Str → List Str
  | [] => [[]]
  | c :: rest =>
      if c = sep then [] :: jsSplit sep rest
      else
        match jsSplit sep rest with
        | t :: ts => (c :: t) :: ts
        | [] => [[c]]

/-- Accumulator loop of `wsTokens`; `cur` is the current token, reversed. -/
def wsTokensAux : Str → Str → List Str
  | [], cur => if cur = [] then [] else [cur.reverse]
  | c :: rest, cur =>
      if isWsChar c then
        if cur = [] then wsTokensAux rest []
        else cur.reverse :: wsTokensAux rest []
      else wsTokensAux rest (c :: cur)

/-- Split on whitespace runs, dropping empty parts.  This models the JS
idiom `s.trim().split(/\s+/).filter(t => t.length > 0)` (and equally
`s.replace(/\s+/g,' ').trim().split(/\s+/).filter(...)`). -/
def wsTokens (l : Str) : List Str := wsTokensAux l []

/-- JS `trim` (restricted to the whitespace set of the model). -/
def trimWs (l : Str) : Str :=
  ((l.dropWhile isWsChar).reverse.dropWhile isWsChar).reverse

/-- Join tokens with single spaces (used to state tokenizer properties). -/
def joinSpace : List Str → Str
  | [] => []
  | [t] => t
  | t :: rest => t ++ ' ' :: joinSpace rest

/-- Accumulator loop of `stripDigitDotAll`; `run` is the digit run read so
far, reversed.  A dot arriving right after a non-empty run deletes both. -/
def stripDDAux : Str → Str → Str
  | [], run => run.reverse
  | c :: rest, run =>
      if c.isDigit then stripDDAux rest (c :: run)
      else if c = '.' && !run.isEmpty then stripDDAux rest []
      else run.reverse ++ c :: stripDDAux rest []

/-- `s.replace(/\d+\./g, '')`: delete every maximal digit run that is
immediately followed by a dot, together with that dot. -/
def stripDigitDotAll (l : Str) : Str := stripDDAux l []

/-- `s.replace(/^\d+\./, '')`: delete a leading digit run followed by a dot,
if present. -/
def stripDigitDotPrefix (l : Str) : Str :=
  match l with
  | c :: rest =>
      if c.isDigit then
        match rest.dropWhile Char.isDigit with
        | d :: tail => if d = '.' then tail else l
        | [] => l
      else l
  | [] => []

/-- Accumulator loop of `searchDigitDot`; `runStart` is the index at which
the digit run currently being read began, if any. -/
def searchDDAux : Str → Nat → Option Nat → Option Nat
  | [], _, _ => none
  | c :: rest, i, runStart =>
      if c.isDigit then
        searchDDAux rest (i + 1) (some (runStart.getD i))
      else if c = '.' && runStart.isSome then runStart
      else searchDDAux rest (i + 1) none

/-- `s.search(/\d+\./)`: index of the first position at which a digit run
followed by a dot starts (`none` for JS's `-1`). -/
def searchDigitDot (l : Str) : Option Nat := searchDDAux l 0 none

/-! ## PositionMap: a JS object keyed by square strings -/

/-- `PositionMap`: square-string to piece, insertion-ordered. -/
abbrev PositionMap := List (Str × StandardPiece)

/-- Reading `position[square]`. -/
def jsGet (pos : PositionMap) (k : Str) : Option StandardPiece :=
  match pos.find? (fun kv => kv.1 = k) with
  | some kv => some kv.2
  | none => none

/-- `position[square] = piece`: update in place if the key exists, else
append (JS insertion-order semantics). -/
def jsAssign (pos : PositionMap) (k : Str) (v : StandardPiece) : PositionMap :=
  match pos with
  | [] => [(k, v)]
  | kv :: rest =>
      if kv.1 = k then (k, v) :: rest else kv :: jsAssign rest k v

/-- `delete position[square]`. -/
def jsDelete (pos : PositionMap) (k : Str) : PositionMap :=
  pos.filter (fun kv => kv.1 ≠ k)

/-- JS `s.includes(sub)`: contiguous-substring containment. -/
def strIncludes (s sub : Str) : Bool :=
  s.tails.any (fun t => sub.isPrefixOf t)

/-! ## FENParser.ts (record parser, first engine variant) -/

/-- JS `Number(c)` for a single character: digit value, 0 for whitespace,
NaN (`none`) otherwise.  Only its NaN-ness is consulted (`isNaN(Number(char))`). -/
def jsCharNum (c : Char) : Option Nat :=
  if c.isDigit then some (c.toNat - 48)
  else if isWsChar c then some 0
  else none

/-- JS `parseInt(c)` for a single character: digit value or NaN (`none`). -/
def jsParseIntChar (c : Char) : Option Nat :=
  if c.isDigit then some (c.toNat - 48) else none

/-- `isFrenchFENNotation` (FENParser.ts line 36): tests the substring before
the first slash — `fen.split('/')[0]` — for regex class `[DTFCdtfc]`. -/
def isFrenchFENNotation (fen : Str) : Bool :=
  ((jsSplit '/' fen).headD []).any
    (fun c => ['D', 'T', 'F', 'C', 'd', 't', 'f', 'c'].contains c)

/-- `coordsToAlgebraic`, tolerating a NaN column (the file cursor can be
poisoned by `parseInt` of a non-digit; the resulting square string is
garbage, as in JS, and the surrounding rank always ends in a parse error). -/
def coordsToAlgebraicJS (row : Nat) (col : Option Nat) : Str :=
  (match col with
   | some c => Char.ofNat (97 + c)
   | none => Char.ofNat 0) :: (toString (8 - row)).toList

/-- The French branch of `parsePosition`'s piece switch (on `char.toUpperCase()`,
white iff the character equals its uppercase form). -/
def frenchPieceFor (c : Char) : Option StandardPiece :=
  if c.toUpper = 'R' then some (if c = 'R' then WhiteKing else BlackKing)
  else if c.toUpper = 'D' then some (if c = 'D' then WhiteQueen else BlackQueen)
  else if c.toUpper = 'T' then some (if c = 'T' then WhiteRook else BlackRook)
  else if c.toUpper = 'F' then some (if c = 'F' then WhiteBishop else BlackBishop)
  else if c.toUpper = 'C' then some (if c = 'C' then WhiteKnight else BlackKnight)
  else if c.toUpper = 'P' then some (if c = 'P' then WhitePawn else BlackPawn)
  else none

/-- The standard branch of `parsePosition`'s piece switch. -/
def stdPieceFor (c : Char) : Option StandardPiece :=
  if c = 'K' then some WhiteKing else if c = 'Q' then some WhiteQueen
  else if c = 'R' then some WhiteRook else if c = 'B' then some WhiteBishop
  else if c = 'N' then some WhiteKnight else if c = 'P' then some WhitePawn
  else if c = 'k' then some BlackKing else if c = 'q' then some BlackQueen
  else if c = 'r' then some BlackRook else if c = 'b' then some BlackBishop
  else if c = 'n' then some BlackKnight else if c = 'p' then some BlackPawn
  else none

/-- `fileIndex >= 8` under JS semantics (false when the cursor is NaN). -/
def cursorGe8 (fileIdx : Option Nat) : Bool :=
  match fileIdx with
  | some n => 8 ≤ n
  | none => false

/-- `fileIndex + emptySquares > 8` under JS semantics (false on NaN). -/
def cursorOver8 (fileIdx : Option Nat) (k : Option Nat) : Bool :=
  match fileIdx, k with
  | some n, some m => 8 < n + m
  | _, _ => false

/-- NaN-propagating cursor addition. -/
def cursorAdd (fileIdx : Option Nat) (k : Option Nat) : Option Nat :=
  match fileIdx, k with
  | some n, some m => some (n + m)
  | _, _ => none

/-- The per-rank character loop of `parsePosition` (FENParser.ts lines
55-103), including the final `fileIndex !== 8` check of that rank. -/
def parseRankChars (fr : Bool) (row : Nat) :
    Str → Option Nat → PositionMap → Except String PositionMap
  | [], fileIdx, acc =>
      if fileIdx = some 8 then .ok acc
      else .error "Invalid FEN: rank is incorrect length"
  | c :: rest, fileIdx, acc =>
      if jsCharNum c = none then
        -- piece-character path
        if cursorGe8 fileIdx then .error "Invalid FEN: too many pieces in rank"
        else if fr && isFrenchPiece c then
          match frenchPieceFor c with
          | some p =>
              parseRankChars fr row rest (cursorAdd fileIdx (some 1))
                (jsAssign acc (coordsToAlgebraicJS row fileIdx) p)
          | none => .error "Invalid French notation piece"
        else
          match stdPieceFor c with
          | some p =>
              parseRankChars fr row rest (cursorAdd fileIdx (some 1))
                (jsAssign acc (coordsToAlgebraicJS row fileIdx) p)
          | none => .error "Invalid piece character"
      else
        if cursorOver8 fileIdx (jsParseIntChar c) then
          .error "Invalid FEN: rank is too long"
        else parseRankChars fr row rest (cursorAdd fileIdx (jsParseIntChar c)) acc

/-- The rank loop of `parsePosition`. -/
def parseRanksAux (fr : Bool) : List Str → Nat → PositionMap →
    Except String PositionMap
  | [], _, acc => .ok acc
  | r :: rest, row, acc =>
      match parseRankChars fr row r (some 0) acc with
      | .ok acc' => parseRanksAux fr rest (row + 1) acc'
      | .error e => .error e

/-- `parsePosition` (FENParser.ts lines 44-107). -/
def parsePosition (boardPart : Str) : Except String PositionMap :=
  let ranks := jsSplit '/' boardPart
  if ranks.length ≠ 8 then .error "Invalid FEN: must have 8 ranks"
  else parseRanksAux (isFrenchFENNotation boardPart) ranks 0 []

namespace FENParser

/-- `parseMoves` (FENParser.ts lines 112-131): whitespace tokenization,
per-token move-number prefix stripping, and French-to-standard conversion
of each non-castling token's leading letter. -/
def parseMoves (movePart : Str) : List Str :=
  if movePart = [] then []
  else
    let moves := wsTokens movePart
    ((moves.map (fun m => trimWs (stripDigitDotPrefix m))).filter
        (fun m => m ≠ [])).map
      (fun m =>
        if m = str "O-O" || m = str "O-O-O" then m else replaceLeadingFrench m)

end FENParser

/-- `CastlingRights` from `types/notation.ts`. -/
structure CastlingRights where
  whiteKingSide : Bool
  whiteQueenSide : Bool
  blackKingSide : Bool
  blackQueenSide : Bool
  deriving DecidableEq, Repr

/-- `parseCastlingRights` (FENParser.ts lines 136-143). -/
def parseCastlingRights (castlingString : Str) : CastlingRights :=
  { whiteKingSide := castlingString.contains 'K'
    whiteQueenSide := castlingString.contains 'Q'
    blackKingSide := castlingString.contains 'k'
    blackQueenSide := castlingString.contains 'q' }

/-- JS `parseInt` on a string (optional sign, leading digits; NaN = `none`).
Only digits and an optional single sign are modelled, which covers the
whitespace-split fields it is applied to. -/
def jsParseIntStr (l : Str) : Option Int :=
  let l := l.dropWhile isWsChar
  let (sign, digits) : Int × Str :=
    match l with
    | '-' :: rest => (-1, rest)
    | '+' :: rest => (1, rest)
    | _ => (1, l)
  let run := digits.takeWhile Char.isDigit
  if run = [] then none
  else some (sign * (run.foldl (fun a c => a * 10 + (c.toNat - 48 : Int)) 0))

/-- `x || d` for strings: the empty string is falsy. -/
def jsOrStr (l d : Str) : Str := if l = [] then d else l

/-- `FENStructure` (FENParser.ts lines 8-16); the active colour and
en-passant fields are stored as the raw strings the source casts. -/
structure FENStructure where
  position : PositionMap
  activeColor : Str
  castling : CastlingRights
  enPassant : Str
  halfMoveClock : Option Int
  fullMoveNumber : Option Int
  moves : List Str
  deriving DecidableEq, Repr

/-- `ParsedFEN` (FENParser.ts lines 18-22); the field `structure` is named
`struct` here because `structure` is a Lean keyword. -/
structure ParsedFEN where
  struct : FENStructure
  isValid : Bool
  error : Option String
  deriving DecidableEq, Repr

/-- The default structure returned on the catch path of `parseFEN`. -/
def defaultFENStructure : FENStructure :=
  { position := []
    activeColor := str "w"
    castling :=
      { whiteKingSide := false, whiteQueenSide := false
        blackKingSide := false, blackQueenSide := false }
    enPassant := str "-"
    halfMoveClock := some 0
    fullMoveNumber := some 1
    moves := [] }

/-- `fenPart.split(/\s+/)` where `fenPart` has already been trimmed: JS
returns `[""]` on the empty string, and the tokens otherwise. -/
def jsSplitWsTrimmed (l : Str) : List Str :=
  if l = [] then [[]] else wsTokens l

namespace FENParser

/-- `parseFEN` (FENParser.ts lines 148-208). -/
def parseFEN (fenString : Str) : ParsedFEN :=
  let moveStartIndex := searchDigitDot fenString
  let fenPart :=
    match moveStartIndex with
    | some i => trimWs (fenString.take i)
    | none => trimWs fenString
  let movePart :=
    match moveStartIndex with
    | some i => trimWs (fenString.drop i)
    | none => []
  let fenParts := jsSplitWsTrimmed fenPart
  if fenParts.length < 4 then
    { struct := defaultFENStructure, isValid := false
      error := some "Invalid FEN: missing required components" }
  else
    match parsePosition (fenParts.getD 0 []) with
    | .error e =>
        { struct := defaultFENStructure, isValid := false, error := some e }
    | .ok position =>
        { isValid := true
          error := none
          struct :=
            { position := position
              activeColor := fenParts.getD 1 []
              castling := parseCastlingRights (fenParts.getD 2 [])
              enPassant := fenParts.getD 3 []
              halfMoveClock := jsParseIntStr (jsOrStr (fenParts.getD 4 []) (str "0"))
              fullMoveNumber := jsParseIntStr (jsOrStr (fenParts.getD 5 []) (str "1"))
              moves := parseMoves movePart } }

end FENParser

/-! ## ChessRules (third engine variant, FENParser.ts lines 512-841):
normalization helpers cited by the claims -/

/-- `isFrenchFEN` (lines 744-747): tests the substring before the first
space for the class `[DdTtFfCc]`. -/
def isFrenchFEN (fen : Str) : Bool :=
  ((jsSplit ' ' fen).headD []).any
    (fun c => ['D', 'd', 'T', 't', 'F', 'f', 'C', 'c'].contains c)

/-- `s.replace(/X/g, Y)` for one-character patterns: a character-wise map. -/
def replaceCharAll (a b : Char) (s : Str) : Str :=
  s.map (fun c => if c = a then b else c)

/-- The ten chained global replacements of `frenchToStandardFEN`, in source
order (R→K, r→k, D→Q, d→q, T→R, t→r, F→B, f→b, C→N, c→n). -/
def frenchSubstitutions (s : Str) : Str :=
  replaceCharAll 'c' 'n' (replaceCharAll 'C' 'N'
    (replaceCharAll 'f' 'b' (replaceCharAll 'F' 'B'
      (replaceCharAll 't' 'r' (replaceCharAll 'T' 'R'
        (replaceCharAll 'd' 'q' (replaceCharAll 'D' 'Q'
          (replaceCharAll 'r' 'k' (replaceCharAll 'R' 'K' s)))))))))

/-- `frenchToStandardFEN` (lines 730-739). -/
def frenchToStandardFEN (fen : Str) : Str :=
  if !isFrenchFEN fen then fen else frenchSubstitutions fen

namespace ChessRules

/-- `parseMoves` (lines 752-761): strip every `<integer>.` marker, then
whitespace-split, dropping empty tokens. -/
def parseMoves (moveString : Str) : List Str :=
  if moveString = [] then []
  else (jsSplitWsTrimmed (trimWs (stripDigitDotAll moveString))).filter
    (fun m => m ≠ [])

end ChessRules

/-! ## The typed move engine (second variant, FENParser.ts lines 209-511) -/

/-- `square.charCodeAt(0) - 97` (`none` models JS NaN, for the empty string). -/
def fileOfSquare (s : Str) : Option Int :=
  match s with
  | c :: _ => some ((c.toNat : Int) - 97)
  | [] => none

/-- `8 - parseInt(square[1] ?? '1', 10)` (`none` models NaN). -/
def rankRowOfSquare (s : Str) : Option Int :=
  match jsParseIntChar (s.getD 1 '1') with
  | some v => some (8 - (v : Int))
  | none => none

/-- JS `===` on numbers that may be NaN. -/
def jsEqOpt (a b : Option Int) : Bool :=
  match a, b with
  | some x, some y => x = y
  | _, _ => false

/-- JS `a <= b` on numbers that may be NaN. -/
def jsLeOpt (a b : Option Int) : Bool :=
  match a, b with
  | some x, some y => x ≤ y
  | _, _ => false

/-- NaN-propagating subtraction. -/
def optSubI (a b : Option Int) : Option Int :=
  match a, b with
  | some x, some y => some (x - y)
  | _, _ => none

/-- NaN-propagating addition. -/
def optAddI (a b : Option Int) : Option Int :=
  match a, b with
  | some x, some y => some (x + y)
  | _, _ => none

/-- `Math.abs`, NaN-propagating. -/
def optAbs (a : Option Int) : Option Int :=
  a.map (fun x => (x.natAbs : Int))

/-- `Math.sign(b - a) || 0`: 0 when the difference is NaN. -/
def jsStep (b a : Option Int) : Int :=
  match b, a with
  | some t, some f => Int.sign (t - f)
  | _, _ => 0

/-- `String.fromCharCode(n)` (ToUint16 wrap; NaN gives code unit 0). -/
def jsFromCharCode (n : Option Int) : Char :=
  match n with
  | some v => Char.ofNat ((v % 65536).toNat)
  | none => Char.ofNat 0

/-- JS number-to-string concatenation for the integers reached here
(`"NaN"` when the value is NaN). -/
def jsNumToStr (n : Option Int) : Str :=
  match n with
  | some v => (toString v).toList
  | none => str "NaN"

/-- The square string built inside `isPieceBetween`'s loop:
`String.fromCharCode(97 + currentFile) + (8 - currentRank)`. -/
def loopSquare (cf cr : Option Int) : Str :=
  jsFromCharCode (optAddI (some 97) cf) :: jsNumToStr (optSubI (some 8) cr)

/-- The while-loop of `isPieceBetween` (lines 263-269), made total with a
step budget: `none` means the budget ran out, which corresponds to a
non-terminating run of the source loop. -/
def ipbLoop (pos : PositionMap) (tf tr : Option Int) (fs rs : Int) :
    Nat → Option Int → Option Int → Option Bool
  | 0, _, _ => none
  | fuel + 1, cf, cr =>
      if jsEqOpt cf tf && jsEqOpt cr tr then some false
      else if (jsGet pos (loopSquare cf cr)).isSome then some true
      else ipbLoop pos tf tr fs rs fuel (optAddI cf (some fs)) (optAddI cr (some rs))

/-- `isPieceBetween` (lines 245-272) run with an explicit step budget. -/
def ipbRun (fuel : Nat) (fromSq toSq : Str) (pos : PositionMap) : Option Bool :=
  let fromFile := fileOfSquare fromSq
  let fromRank := rankRowOfSquare fromSq
  let toFile := fileOfSquare toSq
  let toRank := rankRowOfSquare toSq
  let fileStep := jsStep toFile fromFile
  let rankStep := jsStep toRank fromRank
  ipbLoop pos toFile toRank fileStep rankStep fuel
    (optAddI fromFile (some fileStep)) (optAddI fromRank (some rankStep))

/-- A budget large enough for every terminating run of the source loop
(the number of iterations of a terminating run is bounded by the absolute
file/rank distance, itself bounded by the code-unit range). -/
def ipbFuel : Nat := 2097152

/-- `isPieceBetween` as used by `isLegalMove`.  The default `false` is taken
only when the budget runs out, i.e. on inputs where the source loop never
returns (its in-repo callers only reach it on aligned squares, where the
budget is proven sufficient; see the claim-C8 theorems). -/
def isPieceBetween (fromSq toSq : Str) (pos : PositionMap) : Bool :=
  (ipbRun ipbFuel fromSq toSq pos).getD false

/-- `isLegalMove` (lines 277-336). -/
def isLegalMove (fromSq toSq : Str) (piece : StandardPiece) (pos : PositionMap) :
    Bool :=
  let fromFile := fileOfSquare fromSq
  let fromRank := rankRowOfSquare fromSq
  let toFile := fileOfSquare toSq
  let toRank := rankRowOfSquare toSq
  let deltaFile := optAbs (optSubI toFile fromFile)
  let deltaRank := optAbs (optSubI toRank fromRank)
  let pieceIsWhite := isWhitePiece piece
  let targetPiece := jsGet pos toSq
  if (match targetPiece with
      | some tp => isWhitePiece tp == pieceIsWhite
      | none => false) then false
  else
    let pieceType := getPieceType piece
    if pieceType = str "P" then
      let forwardDirection : Int := if pieceIsWhite then -1 else 1
      let startRank : Int := if pieceIsWhite then 6 else 1
      let capture :=
        jsEqOpt deltaFile (some 1) &&
          jsEqOpt (optSubI toRank fromRank) (some forwardDirection) &&
          targetPiece.isSome
      if jsEqOpt fromFile toFile && targetPiece.isNone then
        if jsEqOpt (optSubI toRank fromRank) (some forwardDirection) then true
        else if jsEqOpt fromRank (some startRank) &&
            jsEqOpt (optSubI toRank fromRank) (some (forwardDirection * 2)) then
          let intermediateSquare :=
            jsFromCharCode (optAddI (some 97) fromFile) ::
              jsNumToStr (optSubI (some 8) (optAddI fromRank (some forwardDirection)))
          (jsGet pos intermediateSquare).isNone
        else capture
      else capture
    else if pieceType = str "R" then
      (jsEqOpt fromFile toFile || jsEqOpt fromRank toRank) &&
        !isPieceBetween fromSq toSq pos
    else if pieceType = str "N" then
      (jsEqOpt deltaFile (some 2) && jsEqOpt deltaRank (some 1)) ||
        (jsEqOpt deltaFile (some 1) && jsEqOpt deltaRank (some 2))
    else if pieceType = str "B" then
      jsEqOpt deltaFile deltaRank && !isPieceBetween fromSq toSq pos
    else if pieceType = str "Q" then
      ((jsEqOpt fromFile toFile || jsEqOpt fromRank toRank) ||
          jsEqOpt deltaFile deltaRank) && !isPieceBetween fromSq toSq pos
    else if pieceType = str "K" then
      jsLeOpt deltaFile (some 1) && jsLeOpt deltaRank (some 1)
    else false

/-- `SecondaryMove` from `types/chess.ts` (field names `from`/`to` become
`fromSq`/`toSq`: `from` is a Lean keyword). -/
structure SecondaryMove where
  fromSq : Str
  toSq : Str
  piece : StandardPiece
  deriving DecidableEq, Repr

/-- `MoveDetail` from `types/chess.ts`. -/
structure MoveDetail where
  fromSq : Str
  toSq : Str
  piece : StandardPiece
  secondaryMove : Option SecondaryMove
  deriving DecidableEq, Repr

/-- The candidate list of `findPieceForMove` (lines 434-441): every square
currently holding the sought piece, in insertion order. -/
def candidateSquares (position : PositionMap) (piece : StandardPiece) : List Str :=
  (position.filter (fun kv => kv.2 = piece)).map Prod.fst

/-- The disambiguation filter of `findPieceForMove` (lines 444-449):
substring containment against the candidate square's name. -/
def candidatesFiltered (position : PositionMap) (piece : StandardPiece)
    (disambiguation : Str) : List Str :=
  if disambiguation ≠ [] then
    (candidateSquares position piece).filter
      (fun sq => strIncludes sq disambiguation)
  else candidateSquares position piece

/-- Target validation, candidate collection, disambiguation filter and
legality search of `findPieceForMove` (lines 429-456), after the piece, the
disambiguation string and the target square have been determined. -/
def resolveCore (position : PositionMap) (piece : StandardPiece)
    (disambiguation targetSquare : Str) : Option MoveDetail :=
  if targetSquare.length ≠ 2 then none
  else
    match (candidatesFiltered position piece disambiguation).find?
        (fun sq => isLegalMove sq targetSquare piece position) with
    | some sq =>
        some { fromSq := sq, toSq := targetSquare, piece := piece,
               secondaryMove := none }
    | none => none

/-- The piece selected from a leading K/Q/R/B/N letter and the active colour
(lines 397-402; the final else is the unreachable pawn fallback). -/
def pieceForChar (pc : Char) (isWhiteTurn : Bool) : StandardPiece :=
  if pc = 'K' then (if isWhiteTurn then WhiteKing else BlackKing)
  else if pc = 'Q' then (if isWhiteTurn then WhiteQueen else BlackQueen)
  else if pc = 'R' then (if isWhiteTurn then WhiteRook else BlackRook)
  else if pc = 'B' then (if isWhiteTurn then WhiteBishop else BlackBishop)
  else if pc = 'N' then (if isWhiteTurn then WhiteKnight else BlackKnight)
  else (if isWhiteTurn then WhitePawn else BlackPawn)

/-- Annotation stripping and French conversion applied to the raw token
(lines 379-387). -/
def normalizeMove (move : Str) : Str :=
  let cleanMove := move.filter (fun c => !(['+', '#', '!', '?'].contains c))
  if isFrenchMove cleanMove then convertMoveToStandard cleanMove else cleanMove

/-- Classification of the cleaned token (lines 389-426) followed by the
candidate search. -/
def classifyAndResolve (position : PositionMap) (cleanMove : Str)
    (isWhiteTurn : Bool) : Option MoveDetail :=
  match cleanMove with
  | pc :: rest =>
      if ['K', 'Q', 'R', 'B', 'N'].contains pc then
        if rest.contains 'x' then
          resolveCore position (pieceForChar pc isWhiteTurn)
            ((jsSplit 'x' rest).getD 0 []) ((jsSplit 'x' rest).getD 1 [])
        else if rest.length > 2 then
          resolveCore position (pieceForChar pc isWhiteTurn)
            (rest.take (rest.length - 2)) (rest.drop (rest.length - 2))
        else resolveCore position (pieceForChar pc isWhiteTurn) [] rest
      else
        if (pc :: rest).contains 'x' then
          resolveCore position (if isWhiteTurn then WhitePawn else BlackPawn)
            ((jsSplit 'x' (pc :: rest)).getD 0 []) ((jsSplit 'x' (pc :: rest)).getD 1 [])
        else
          resolveCore position (if isWhiteTurn then WhitePawn else BlackPawn)
            [] (pc :: rest)
  | [] =>
      resolveCore position (if isWhiteTurn then WhitePawn else BlackPawn) [] []

/-- `findPieceForMove` (lines 342-457). -/
def findPieceForMove (position : PositionMap) (move : Str)
    (isWhiteTurn : Bool) : Option MoveDetail :=
  if move = str "O-O" || move = str "O-O-O" then
    let rank := if isWhiteTurn then '1' else '8'
    let king := if isWhiteTurn then WhiteKing else BlackKing
    let rook := if isWhiteTurn then WhiteRook else BlackRook
    if move = str "O-O" then
      some { fromSq := ['e', rank], toSq := ['g', rank], piece := king,
             secondaryMove :=
               some { fromSq := ['h', rank], toSq := ['f', rank], piece := rook } }
    else
      some { fromSq := ['e', rank], toSq := ['c', rank], piece := king,
             secondaryMove :=
               some { fromSq := ['a', rank], toSq := ['d', rank], piece := rook } }
  else classifyAndResolve position (normalizeMove move) isWhiteTurn

/-- `GeneratePositionsResult` from `types/chess.ts`. -/
structure GeneratePositionsResult where
  positions : List PositionMap
  moveDetails : List MoveDetail
  error : Option String
  deriving DecidableEq, Repr

/-- One board delta of `generatePositions` (lines 478-487): primary move,
then the secondary (castling rook) move if present. -/
def applyMoveInfo (pos : PositionMap) (mi : MoveDetail) : PositionMap :=
  let newPos := jsAssign (jsDelete pos mi.fromSq) mi.toSq mi.piece
  match mi.secondaryMove with
  | some sm => jsAssign (jsDelete newPos sm.fromSq) sm.toSq sm.piece
  | none => newPos

/-- The `forEach` body of `generatePositions` (lines 471-497), written as a
recursion returning the accumulated positions and move details. -/
def genAux (pos : PositionMap) (isWhiteTurn : Bool) :
    List Str → List PositionMap × List MoveDetail
  | [] => ([], [])
  | move :: restMoves =>
      let standardMove :=
        if isFrenchMove move then convertMoveToStandard move else move
      match findPieceForMove pos standardMove isWhiteTurn with
      | some moveInfo =>
          let newPos := applyMoveInfo pos moveInfo
          let (ps, ds) := genAux newPos (!isWhiteTurn) restMoves
          (newPos :: ps, moveInfo :: ds)
      | none =>
          let (ps, ds) := genAux pos (!isWhiteTurn) restMoves
          (pos :: ps, ds)

/-- `generatePositions` (lines 462-511). -/
def generatePositions (initialPos : PositionMap) (moveList : List Str) :
    GeneratePositionsResult :=
  let (positions, moveDetails) := genAux initialPos true moveList
  { positions := positions
    moveDetails := moveDetails
    error :=
      if positions.length ≠ moveList.length then
        some "Certains coups n'ont pas pu etre executes"
      else none }

/-! ## Specification-side definitions

These render the spec's vocabulary (well-formedness of a board section, the
French-exclusive letter set, alignment of squares, the sequencer's
intermediate states) so the claims can be stated; the engine definitions
above are the ones translated from the source. -/

/-- The French-exclusive letters named by the spec (R/r and P/p are shared
between the two alphabets). -/
def frenchExclusiveLetters : List Char := ['D', 'd', 'T', 't', 'F', 'f', 'C', 'c']

/-- A board-section character accepted by the claim's wording: a digit 1-8,
or a recognised piece letter of either alphabet. -/
def claimBoardCharOK (c : Char) : Bool :=
  ('1' ≤ c && c ≤ '8') || (stdPieceFor c).isSome || isFrenchPiece c

/-- File count of one rank: a digit counts its value, any other character
counts one file. -/
def rankFileSum (r : Str) : Nat :=
  (r.map (fun c => if c.isDigit then c.toNat - 48 else 1)).sum

/-- Well-formedness of a board section exactly as claim C5 words it:
8 slash-separated ranks, every character a digit 1-8 or a recognised piece
letter, and each rank's files summing to exactly 8. -/
def ClaimWellFormedBoard (b : Str) : Prop :=
  (jsSplit '/' b).length = 8 ∧
  ∀ r ∈ jsSplit '/' b, (∀ c ∈ r, claimBoardCharOK c = true) ∧ rankFileSum r = 8

/-- A board-section character the decoder actually accepts, under the
French-detection flag `fr`: any digit 0-9 (an empty-run count), or a piece
letter recognised by the branch the flag selects. -/
def codeValidChar (fr : Bool) (c : Char) : Bool :=
  c.isDigit || (if fr && isFrenchPiece c then true else (stdPieceFor c).isSome)

/-- Well-formedness of a board section as the decoder actually enforces it. -/
def CodeWellFormedBoard (b : Str) : Prop :=
  (jsSplit '/' b).length = 8 ∧
  ∀ r ∈ jsSplit '/' b,
    (∀ c ∈ r, codeValidChar (isFrenchFENNotation b) c = true) ∧ rankFileSum r = 8

/-- The normalization `generatePositions` applies to a token before
resolving it. -/
def stdMoveOf (m : Str) : Str :=
  if isFrenchMove m then convertMoveToStandard m else m

/-- One sequencer step: the applied move when resolution succeeds, the
unchanged position when it fails. -/
def stepPos (pos : PositionMap) (w : Bool) (m : Str) : PositionMap :=
  match findPieceForMove pos (stdMoveOf m) w with
  | some mi => applyMoveInfo pos mi
  | none => pos

/-- The board state the sequencer holds just before processing index `i`. -/
def stateBefore (pos : PositionMap) (w : Bool) : List Str → Nat → PositionMap
  | _, 0 => pos
  | [], _ + 1 => pos
  | m :: rest, i + 1 => stateBefore (stepPos pos w m) (!w) rest i

/-- The active colour at index `i`, starting from `w`: flipped once per
processed token, successful or not. -/
def turnAt (w : Bool) (i : Nat) : Bool := if i % 2 = 0 then w else !w

/-- Termination of the source `isPieceBetween` loop on given inputs: some
step budget suffices. -/
def TerminatesBetween (fromSq toSq : Str) (pos : PositionMap) : Prop :=
  ∃ fuel, (ipbRun fuel fromSq toSq pos).isSome = true

/-- The canonical two-character string of a board square (file a-h, rank 1-8). -/
def mkSquare (f r : Fin 8) : Str :=
  [Char.ofNat (97 + f.val), Char.ofNat (49 + r.val)]

/-- Two board squares share a file, a rank, or a diagonal. -/
def AlignedSquares (f₁ r₁ f₂ r₂ : Fin 8) : Prop :=
  f₁.val = f₂.val ∨ r₁.val = r₂.val ∨
    ((f₂.val : Int) - f₁.val).natAbs = ((r₂.val : Int) - r₁.val).natAbs

/-- The decoded standard initial position, in the decoder's insertion order
(rank 8 first, files a to h). -/
def stdInitPosition : PositionMap :=
  [(str "a8", BlackRook), (str "b8", BlackKnight), (str "c8", BlackBishop),
   (str "d8", BlackQueen), (str "e8", BlackKing), (str "f8", BlackBishop),
   (str "g8", BlackKnight), (str "h8", BlackRook),
   (str "a7", BlackPawn), (str "b7", BlackPawn), (str "c7", BlackPawn),
   (str "d7", BlackPawn), (str "e7", BlackPawn), (str "f7", BlackPawn),
   (str "g7", BlackPawn), (str "h7", BlackPawn),
   (str "a2", WhitePawn), (str "b2", WhitePawn), (str "c2", WhitePawn),
   (str "d2", WhitePawn), (str "e2", WhitePawn), (str "f2", WhitePawn),
   (str "g2", WhitePawn), (str "h2", WhitePawn),
   (str "a1", WhiteRook), (str "b1", WhiteKnight), (str "c1", WhiteBishop),
   (str "d1", WhiteQueen), (str "e1", WhiteKing), (str "f1", WhiteBishop),
   (str "g1", WhiteKnight), (str "h1", WhiteRook)]

/-! ## General lemmas -/

/-- The position list built by the sequencer loop has one entry per token:
both the success branch and the failure branch append exactly one position. -/
theorem genAux_positions_length (l : List Str) : ∀ (pos : PositionMap) (w : Bool),
    ((genAux pos w l).1).length = l.length := by
  induction l with
  | nil => intro pos w; rfl
  | cons m rest ih =>
      intro pos w
      unfold genAux
      cases h : findPieceForMove pos (if isFrenchMove m then convertMoveToStandard m else m) w with
      | some mi => simp [h, ih]
      | none => simp [h, ih]

/-- The move-detail list never outgrows the token list. -/
theorem genAux_details_le (l : List Str) : ∀ (pos : PositionMap) (w : Bool),
    ((genAux pos w l).2).length ≤ l.length := by
  induction l with
  | nil => intro pos w; exact Nat.le_refl 0
  | cons m rest ih =>
      intro pos w
      unfold genAux
      cases h : findPieceForMove pos (if isFrenchMove m then convertMoveToStandard m else m) w with
      | some mi => simpa [h] using ih _ (!w)
      | none => simp [h]; exact Nat.le_succ_of_le (ih _ (!w))

theorem jsSplit_ne_nil (sep : Char) (l : Str) : jsSplit sep l ≠ [] := by
  cases l with
  | nil => simp [jsSplit]
  | cons c rest =>
      simp only [jsSplit]
      split
      · simp
      · split <;> simp

/-- The first part produced by `split(sep)` is the prefix before the first
separator. -/
theorem jsSplit_head (sep : Char) (l : Str) :
    (jsSplit sep l).headD [] = l.takeWhile (fun c => c != sep) := by
  induction l with
  | nil => rfl
  | cons c rest ih =>
      by_cases h : c = sep
      · subst h
        simp [jsSplit, List.takeWhile_cons]
      · simp only [jsSplit, if_neg h]
        cases hs : jsSplit sep rest with
        | nil => exact absurd hs (jsSplit_ne_nil sep rest)
        | cons t ts =>
            rw [List.takeWhile_cons_of_pos (by simp [h]), ← ih, hs]
            rfl

theorem takeWhile_all_of {α : Type} {p : α → Bool} :
    ∀ l : List α, (∀ a ∈ l, p a = true) → l.takeWhile p = l := by
  intro l h
  induction l with
  | nil => rfl
  | cons c rest ih =>
      rw [List.takeWhile_cons_of_pos (h c (by simp))]
      rw [ih (fun a ha => h a (by simp [ha]))]

theorem dropWhile_all_of {α : Type} {p : α → Bool} :
    ∀ l : List α, (∀ a ∈ l, p a = true) → l.dropWhile p = [] := by
  intro l h
  induction l with
  | nil => rfl
  | cons c rest ih =>
      rw [List.dropWhile_cons_of_pos (h c (by simp))]
      exact ih (fun a ha => h a (by simp [ha]))

/-! ## Claim theorems -/

/-- C1: decoding the standard initial board section and sequencing the move
list e4, e5, Nf3, Nc6 yields exactly 4 positions, and the third position
(index 2) holds the white knight on f3 with g1 empty. -/
theorem C1_standard_opening_sequence :
    parsePosition (str "rnbqkbnr/pppppppp/8/8/8/8/PPPPPPPP/RNBQKBNR") =
      .ok stdInitPosition ∧
    (generatePositions stdInitPosition
        [str "e4", str "e5", str "Nf3", str "Nc6"]).positions.length = 4 ∧
    jsGet ((generatePositions stdInitPosition
        [str "e4", str "e5", str "Nf3", str "Nc6"]).positions.getD 2 [])
      (str "f3") = some WhiteKnight ∧
    jsGet ((generatePositions stdInitPosition
        [str "e4", str "e5", str "Nf3", str "Nc6"]).positions.getD 2 [])
      (str "g1") = none := by
  refine ⟨rfl, by decide, by decide, by decide⟩

/-- C6: the castling tokens short-circuit to the fixed king and rook moves
for either colour, on every position whatsoever (no presence or path check). -/
theorem C6_castling_short_circuit : ∀ position : PositionMap,
    findPieceForMove position (str "O-O") true =
      some ⟨str "e1", str "g1", WhiteKing, some ⟨str "h1", str "f1", WhiteRook⟩⟩ ∧
    findPieceForMove position (str "O-O") false =
      some ⟨str "e8", str "g8", BlackKing, some ⟨str "h8", str "f8", BlackRook⟩⟩ ∧
    findPieceForMove position (str "O-O-O") true =
      some ⟨str "e1", str "c1", WhiteKing, some ⟨str "a1", str "d1", WhiteRook⟩⟩ ∧
    findPieceForMove position (str "O-O-O") false =
      some ⟨str "e8", str "c8", BlackKing, some ⟨str "a8", str "d8", BlackRook⟩⟩ := by
  intro position
  exact ⟨rfl, rfl, rfl, rfl⟩

/-- C9: the positions list always has exactly one entry per move token, the
dead length check after the fold never fires, and the result's error field
is always `none` (failed moves are never reported in the returned value). -/
theorem C9_error_always_none : ∀ (initialPos : PositionMap) (moveList : List Str),
    (generatePositions initialPos moveList).positions.length = moveList.length ∧
    (generatePositions initialPos moveList).error = none := by
  intro initialPos moveList
  have h := genAux_positions_length moveList initialPos true
  constructor
  · simpa [generatePositions] using h
  · simp [generatePositions, h]

/-- C2 fails as stated: on the board section 8/8/8/8/8/8/8/t7 the detector
used by the decoder returns false although the French-exclusive letter t
appears in a rank (it only inspects the part before the first slash). -/
theorem C2_counterexample :
    isFrenchFENNotation (str "8/8/8/8/8/8/8/t7") = false ∧
    't' ∈ str "8/8/8/8/8/8/8/t7" ∧ 't' ∈ frenchExclusiveLetters := by
  decide

/-- C2 amended: the decoder's detector is true iff a French-exclusive letter
occurs in the part of the section before the first slash (the first rank
only), while the third variant's detector is true iff such a letter occurs
anywhere in a space-free board section; R, r, P, p never matter for either. -/
theorem C2_amended : ∀ s : Str,
    (isFrenchFENNotation s = true ↔
      ∃ c ∈ s.takeWhile (fun c => c != '/'), c ∈ frenchExclusiveLetters) ∧
    (' ' ∉ s →
      (isFrenchFEN s = true ↔ ∃ c ∈ s, c ∈ frenchExclusiveLetters)) := by
  intro s
  constructor
  · rw [isFrenchFENNotation, jsSplit_head, List.any_eq_true]
    constructor
    · rintro ⟨c, hc, hm⟩
      refine ⟨c, hc, ?_⟩
      simp only [List.contains, List.elem_eq_mem, List.mem_cons, decide_eq_true_eq] at hm
      simp only [frenchExclusiveLetters, List.mem_cons]
      tauto
    · rintro ⟨c, hc, hm⟩
      refine ⟨c, hc, ?_⟩
      simp only [frenchExclusiveLetters, List.mem_cons] at hm
      simp only [List.contains, List.elem_eq_mem, List.mem_cons, decide_eq_true_eq]
      tauto
  · intro hsp
    rw [isFrenchFEN, jsSplit_head,
      takeWhile_all_of s (fun a ha => by
        simp only [bne_iff_ne, ne_eq, decide_eq_true_eq]
        rintro rfl; exact hsp ha),
      List.any_eq_true]
    constructor
    · rintro ⟨c, hc, hm⟩
      refine ⟨c, hc, ?_⟩
      simp only [List.contains, List.elem_eq_mem, List.mem_cons, decide_eq_true_eq] at hm
      simp only [frenchExclusiveLetters, List.mem_cons]
      tauto
    · rintro ⟨c, hc, hm⟩
      refine ⟨c, hc, ?_⟩
      simp only [frenchExclusiveLetters, List.mem_cons] at hm
      simp only [List.contains, List.elem_eq_mem, List.mem_cons, decide_eq_true_eq]
      tauto

/-- Witness for the amended C2, at a concrete space-free board section whose
only French-exclusive letter sits in the last rank. -/
theorem C2_amended_witness :
    isFrenchFEN (str "8/8/8/8/8/8/8/t7") = true := by
  exact ((C2_amended (str "8/8/8/8/8/8/8/t7")).2 (by decide)).mpr
    ⟨'t', by decide, by decide⟩

/-- C3 fails as stated: the French board section r7/8/8/8/8/8/8/R7 (kings
only) contains no French-exclusive letter, so normalization leaves it
unchanged and it decodes to rooks, while the standard rendering of the same
logical position (its letterwise image, k7/8/8/8/8/8/8/K7) decodes to kings. -/
theorem C3_counterexample :
    (str "r7/8/8/8/8/8/8/R7").map convertPieceToStandardChar =
      str "k7/8/8/8/8/8/8/K7" ∧
    jsGet ((parsePosition (frenchToStandardFEN (str "r7/8/8/8/8/8/8/R7"))).toOption.getD [])
      (str "a8") = some BlackRook ∧
    jsGet ((parsePosition (str "k7/8/8/8/8/8/8/K7")).toOption.getD [])
      (str "a8") = some BlackKing ∧
    BlackRook ≠ BlackKing := by
  decide

theorem frenchSubstitutions_cons (c : Char) (rest : Str) :
    frenchSubstitutions (c :: rest) =
      frenchSubstitutions [c] ++ frenchSubstitutions rest := rfl

/-- On a single character the ten chained replacements act exactly as the
French-to-standard piece map (identity off the French letters). -/
theorem frenchSubstitutions_single (c : Char) :
    frenchSubstitutions [c] = [convertPieceToStandardChar c] := by
  by_cases h1 : c = 'R'
  · subst h1; rfl
  by_cases h2 : c = 'r'
  · subst h2; rfl
  by_cases h3 : c = 'D'
  · subst h3; rfl
  by_cases h4 : c = 'd'
  · subst h4; rfl
  by_cases h5 : c = 'T'
  · subst h5; rfl
  by_cases h6 : c = 't'
  · subst h6; rfl
  by_cases h7 : c = 'F'
  · subst h7; rfl
  by_cases h8 : c = 'f'
  · subst h8; rfl
  by_cases h9 : c = 'C'
  · subst h9; rfl
  by_cases h10 : c = 'c'
  · subst h10; rfl
  by_cases h11 : c = 'P'
  · subst h11; rfl
  by_cases h12 : c = 'p'
  · subst h12; rfl
  simp [frenchSubstitutions, replaceCharAll, convertPieceToStandardChar,
    h1, h2, h3, h4, h5, h6, h7, h8, h9, h10, h11, h12]

/-- The ten chained global replacements of the normalizer equal one
letterwise application of the French-to-standard piece map. -/
theorem frenchSubstitutions_eq_map : ∀ s : Str,
    frenchSubstitutions s = s.map convertPieceToStandardChar := by
  intro s
  induction s with
  | nil => rfl
  | cons c rest ih =>
      rw [frenchSubstitutions_cons, frenchSubstitutions_single, ih]
      rfl

/-- C3 amended: for every board section the code actually classifies as
French (a French-exclusive letter D,T,F,C in either case occurs before any
space), normalizing and then decoding agrees with decoding the standard
rendering of the same logical position (the letterwise French-to-standard
image); in particular the French initial-position string decodes exactly as
the standard initial-position string.  Sections whose only piece letters
are R, r, P, p escape the classification (see the counterexample). -/
theorem C3_amended : ∀ s : Str, isFrenchFEN s = true →
    parsePosition (frenchToStandardFEN s) =
      parsePosition (s.map convertPieceToStandardChar) ∧
    parsePosition (frenchToStandardFEN
        (str "tcfdrfct/pppppppp/8/8/8/8/PPPPPPPP/TCFDRFCT")) =
      parsePosition (str "rnbqkbnr/pppppppp/8/8/8/8/PPPPPPPP/RNBQKBNR") := by
  intro s hs
  constructor
  · unfold frenchToStandardFEN
    rw [hs]
    simp only [Bool.not_true, Bool.false_eq_true, if_false]
    rw [frenchSubstitutions_eq_map]
  · rfl

/-- Witness for the amended C3: the French initial-position string, which
the code does classify as French. -/
theorem C3_amended_witness :
    parsePosition (frenchToStandardFEN
        (str "tcfdrfct/pppppppp/8/8/8/8/PPPPPPPP/TCFDRFCT")) =
      parsePosition ((str "tcfdrfct/pppppppp/8/8/8/8/PPPPPPPP/TCFDRFCT").map
        convertPieceToStandardChar) :=
  (C3_amended (str "tcfdrfct/pppppppp/8/8/8/8/PPPPPPPP/TCFDRFCT") (by decide)).1

/-- C4 fails as stated in its last part: when resolution fails (here no
white queen exists for Qh5) the sequencer does append the unchanged prior
position and records no MoveDetail, but the returned value reports nothing:
its error field is `none` and it carries no failed-index information. -/
theorem C4_counterexample :
    findPieceForMove [] (str "Qh5") true = none ∧
    generatePositions [] [str "Qh5"] =
      { positions := [[]], moveDetails := [], error := none } := by
  exact ⟨rfl, rfl⟩

theorem turnAt_succ (w : Bool) (k : Nat) : turnAt w (k + 1) = turnAt (!w) k := by
  unfold turnAt
  rcases Nat.even_or_odd k with h | h
  · obtain ⟨j, hj⟩ := h
    have h1 : k % 2 = 0 := by omega
    have h2 : (k + 1) % 2 = 1 := by omega
    simp [h1, h2]
  · obtain ⟨j, hj⟩ := h
    have h1 : k % 2 = 1 := by omega
    have h2 : (k + 1) % 2 = 0 := by omega
    simp [h1, h2]

/-- When resolution fails at index `i`, the sequencer's output repeats the
prior state at that index, and the move-detail list stays strictly shorter
than the token list. -/
theorem genAux_fail_facts : ∀ (l : List Str) (pos : PositionMap) (w : Bool) (i : Nat),
    i < l.length →
    findPieceForMove (stateBefore pos w l i) (stdMoveOf (l.getD i [])) (turnAt w i) = none →
    (genAux pos w l).1.getD i [] = stateBefore pos w l i ∧
    (genAux pos w l).2.length < l.length := by
  intro l
  induction l with
  | nil => intro pos w i hi _; simp at hi
  | cons m rest ih =>
      intro pos w i hi hfail
      cases i with
      | zero =>
          have hf' : findPieceForMove pos
              (if isFrenchMove m then convertMoveToStandard m else m) w = none := hfail
          have hdet := genAux_details_le rest pos (!w)
          cases hgen : genAux pos (!w) rest with
          | mk ps ds =>
              rw [hgen] at hdet
              constructor
              · show (genAux pos w (m :: rest)).1.getD 0 [] = pos
                simp [genAux, hf', hgen]
              · simp only [genAux, hf', hgen]
                simpa using Nat.lt_succ_of_le hdet
      | succ k =>
          have hi' : k < rest.length := by simpa using hi
          have hfail' : findPieceForMove (stateBefore (stepPos pos w m) (!w) rest k)
              (stdMoveOf (rest.getD k [])) (turnAt (!w) k) = none := by
            have h2 : turnAt w (k + 1) = turnAt (!w) k := turnAt_succ w k
            rw [show stateBefore pos w (m :: rest) (k + 1) =
                stateBefore (stepPos pos w m) (!w) rest k from rfl,
              show ((m :: rest).getD (k + 1) []) = rest.getD k [] from rfl, h2] at hfail
            exact hfail
          have hrec := ih (stepPos pos w m) (!w) k hi' hfail'
          have hsb : stateBefore pos w (m :: rest) (k + 1) =
              stateBefore (stepPos pos w m) (!w) rest k := rfl
          cases hr : findPieceForMove pos
              (if isFrenchMove m then convertMoveToStandard m else m) w with
          | some mi =>
              have hr' : findPieceForMove pos (stdMoveOf m) w = some mi := hr
              have hstep : stepPos pos w m = applyMoveInfo pos mi := by
                unfold stepPos
                rw [hr']
              rw [hstep] at hrec
              cases hgen : genAux (applyMoveInfo pos mi) (!w) rest with
              | mk ps ds =>
                  rw [hgen] at hrec
                  constructor
                  · rw [hsb, hstep]
                    simp only [genAux, hr, hgen]
                    simpa using hrec.1
                  · simp only [genAux, hr, hgen]
                    simpa using hrec.2
          | none =>
              have hr' : findPieceForMove pos (stdMoveOf m) w = none := hr
              have hstep : stepPos pos w m = pos := by
                unfold stepPos
                rw [hr']
              rw [hstep] at hrec
              cases hgen : genAux pos (!w) rest with
              | mk ps ds =>
                  rw [hgen] at hrec
                  constructor
                  · rw [hsb, hstep]
                    simp only [genAux, hr, hgen]
                    simpa using hrec.1
                  · simp only [genAux, hr, hgen]
                    simpa using Nat.lt_succ_of_lt hrec.2

/-- C4 amended: on a failed resolution the sequencer appends the unchanged
prior position, records no MoveDetail for that index, still flips the
active colour, and keeps processing every remaining token — but, contrary
to the claim's last part, the returned result never reports which indices
failed: its error field is always `none`. -/
theorem C4_amended : ∀ (initialPos : PositionMap) (moveList : List Str) (i : Nat),
    i < moveList.length →
    findPieceForMove (stateBefore initialPos true moveList i)
      (stdMoveOf (moveList.getD i [])) (turnAt true i) = none →
    (generatePositions initialPos moveList).positions.getD i [] =
      stateBefore initialPos true moveList i ∧
    (generatePositions initialPos moveList).positions.length = moveList.length ∧
    (generatePositions initialPos moveList).moveDetails.length < moveList.length ∧
    (generatePositions initialPos moveList).error = none := by
  intro initialPos moveList i hi hfail
  have hf := genAux_fail_facts moveList initialPos true i hi hfail
  have hlen := genAux_positions_length moveList initialPos true
  refine ⟨?_, ?_, ?_, ?_⟩
  · simpa [generatePositions] using hf.1
  · simpa [generatePositions] using hlen
  · simpa [generatePositions] using hf.2
  · simp [generatePositions, hlen]

/-- Witness for the amended C4: the single unresolvable token Qh5 on the
empty board. -/
theorem C4_amended_witness :
    (generatePositions [] [str "Qh5"]).positions.getD 0 [] =
      stateBefore [] true [str "Qh5"] 0 ∧
    (generatePositions [] [str "Qh5"]).positions.length = 1 ∧
    (generatePositions [] [str "Qh5"]).moveDetails.length < 1 ∧
    (generatePositions [] [str "Qh5"]).error = none :=
  C4_amended [] [str "Qh5"] 0 (by decide) (by decide)

/-- C5 fails as stated: the board section 08/8/8/8/8/8/8/8 contains the
character 0, which is neither a digit 1-8 nor a recognised piece letter, so
the claim demands a parse error; the decoder accepts it (digit 0 is treated
as an empty run of width zero) and the record parser reports validity. -/
theorem C5_counterexample :
    ¬ ClaimWellFormedBoard (str "08/8/8/8/8/8/8/8") ∧
    (parsePosition (str "08/8/8/8/8/8/8/8")).isOk = true ∧
    (FENParser.parseFEN (str "08/8/8/8/8/8/8/8 w - -")).isValid = true := by
  refine ⟨?_, by decide, by decide⟩
  intro ⟨_, h⟩
  have := h (str "08") (by decide)
  have h0 := this.1 '0' (by decide)
  simp [claimBoardCharOK, stdPieceFor, isFrenchPiece] at h0

/-- On the a1-to-b3 run the loop state drifts along an anti-diagonal whose
coordinate sum stays 7, while the target b3 has coordinate sum 6, so no step
budget makes the loop stop (the board is empty, so no occupancy exit either). -/
theorem ipbLoop_a1b3 : ∀ (fuel : Nat) (cf cr : Int), cf + cr = 7 →
    ipbLoop [] (some 1) (some 5) 1 (-1) fuel (some cf) (some cr) = none := by
  intro fuel
  induction fuel with
  | zero => intro cf cr h; rfl
  | succ n ih =>
      intro cf cr h
      have hcond : (jsEqOpt (some cf) (some 1) && jsEqOpt (some cr) (some 5)) = false := by
        by_cases hc : cf = 1
        · have : cr ≠ 5 := by omega
          simp [jsEqOpt, this]
        · simp [jsEqOpt, hc]
      simp only [ipbLoop, hcond, Bool.false_eq_true, if_false, jsGet,
        List.find?_nil, Option.isSome_none, optAddI]
      exact ih (cf + 1) (cr + -1) (by omega)

/-- C8 fails as stated: `isPieceBetween` does not terminate on every pair of
board squares — on the non-aligned pair a1, b3 (a knight-shaped offset) the
source while-loop never exits, whatever the position; here shown on the
empty board: no step budget whatsoever completes the run. -/
theorem C8_counterexample : ¬ TerminatesBetween (str "a1") (str "b3") [] := by
  rintro ⟨fuel, h⟩
  have heq : ipbRun fuel (str "a1") (str "b3") [] =
      ipbLoop [] (some 1) (some 5) 1 (-1) fuel (some 1) (some 6) := rfl
  rw [heq, ipbLoop_a1b3 fuel 1 6 (by norm_num)] at h
  simp at h

/-- If the target is exactly `n` unit steps ahead of the loop state on both
axes simultaneously, the loop exits within any budget exceeding `n`. -/
theorem ipbLoop_reaches : ∀ (n : Nat) (fuel : Nat) (cf cr tf tr fs rs : Int)
    (pos : PositionMap), cf + n * fs = tf → cr + n * rs = tr → n < fuel →
    (ipbLoop pos (some tf) (some tr) fs rs fuel (some cf) (some cr)).isSome = true := by
  intro n
  induction n with
  | zero =>
      intro fuel cf cr tf tr fs rs pos h1 h2 hf
      cases fuel with
      | zero => omega
      | succ m =>
          have e1 : cf = tf := by simpa using h1
          have e2 : cr = tr := by simpa using h2
          simp [ipbLoop, jsEqOpt, e1, e2]
  | succ k ih =>
      intro fuel cf cr tf tr fs rs pos h1 h2 hf
      cases fuel with
      | zero => omega
      | succ m =>
          by_cases hc : cf = tf ∧ cr = tr
          · simp [ipbLoop, jsEqOpt, hc.1, hc.2]
          · have hcond : (jsEqOpt (some cf) (some tf) && jsEqOpt (some cr) (some tr)) = false := by
              by_cases h3 : cf = tf
              · have h4 : cr ≠ tr := fun h5 => hc ⟨h3, h5⟩
                simp [jsEqOpt, h4]
              · simp [jsEqOpt, h3]
            have e1 : cf + fs + (k : Int) * fs = tf := by
              push_cast at h1 ⊢
              linear_combination h1
            have e2 : cr + rs + (k : Int) * rs = tr := by
              push_cast at h2 ⊢
              linear_combination h2
            cases hocc : (jsGet pos (loopSquare (some cf) (some cr))).isSome with
            | true =>
                simp [ipbLoop, hcond, hocc]
            | false =>
                simp only [ipbLoop, hcond, Bool.false_eq_true, if_false, hocc, optAddI]
                exact ih m (cf + fs) (cr + rs) tf tr fs rs pos e1 e2 (by omega)

/-- C8 amended: the engine's operations are total except that
`isPieceBetween`'s loop diverges on pairs of squares that share no file,
rank or diagonal; its in-repo callers only reach it on aligned squares, and
there it terminates for every position, within the wrapper's budget. -/
theorem C8_amended : ∀ (f₁ r₁ f₂ r₂ : Fin 8) (pos : PositionMap),
    AlignedSquares f₁ r₁ f₂ r₂ →
    (ipbRun ipbFuel (mkSquare f₁ r₁) (mkSquare f₂ r₂) pos).isSome = true ∧
    TerminatesBetween (mkSquare f₁ r₁) (mkSquare f₂ r₂) pos := by
  intro f₁ r₁ f₂ r₂ pos hal
  have hf1 : fileOfSquare (mkSquare f₁ r₁) = some ((f₁.val : Int)) := by
    fin_cases f₁ <;> rfl
  have hf2 : fileOfSquare (mkSquare f₂ r₂) = some ((f₂.val : Int)) := by
    fin_cases f₂ <;> rfl
  have hr1 : rankRowOfSquare (mkSquare f₁ r₁) = some (7 - (r₁.val : Int)) := by
    fin_cases r₁ <;> rfl
  have hr2 : rankRowOfSquare (mkSquare f₂ r₂) = some (7 - (r₂.val : Int)) := by
    fin_cases r₂ <;> rfl
  have main : ∀ fuel : Nat, 8 ≤ fuel →
      (ipbRun fuel (mkSquare f₁ r₁) (mkSquare f₂ r₂) pos).isSome = true := by
    intro fuel hfuel
    set cf0 : Int := (f₁.val : Int) with hcf0
    set tf : Int := (f₂.val : Int) with htf
    set cr0 : Int := 7 - (r₁.val : Int) with hcr0
    set tr : Int := 7 - (r₂.val : Int) with htr
    set df : Int := tf - cf0 with hdf
    set dr : Int := tr - cr0 with hdr
    set N : Nat := max (max df.natAbs dr.natAbs) 1 with hN
    have hNf : (N : Int) * Int.sign df = df := by
      by_cases h0 : df = 0
      · simp [h0]
      · have hEq : N = df.natAbs := by
          rcases hal with h | h | h
          · exfalso
            apply h0
            simp only [hdf, htf, hcf0]
            omega
          · have : dr = 0 := by
              simp only [hdr, htr, hcr0]
              omega
            simp only [hN, this, Int.natAbs_zero]
            have : 1 ≤ df.natAbs := by
              rcases Int.natAbs_eq_zero.not.mpr h0 with h'
              omega
            omega
          · have habs : df.natAbs = dr.natAbs := by
              simp only [hdf, hdr, htf, hcf0, htr, hcr0] at h ⊢
              omega
            have : 1 ≤ df.natAbs := by
              rcases Int.natAbs_eq_zero.not.mpr h0 with h'
              omega
            simp only [hN, habs]
            omega
        rw [hEq, mul_comm]
        exact Int.sign_mul_natAbs df
    have hNr : (N : Int) * Int.sign dr = dr := by
      by_cases h0 : dr = 0
      · simp [h0]
      · have hEq : N = dr.natAbs := by
          rcases hal with h | h | h
          · have : df = 0 := by
              simp only [hdf, htf, hcf0]
              omega
            simp only [hN, this, Int.natAbs_zero]
            have : 1 ≤ dr.natAbs := by
              rcases Int.natAbs_eq_zero.not.mpr h0 with h'
              omega
            omega
          · exfalso
            apply h0
            simp only [hdr, htr, hcr0]
            omega
          · have habs : df.natAbs = dr.natAbs := by
              simp only [hdf, hdr, htf, hcf0, htr, hcr0] at h ⊢
              omega
            have : 1 ≤ dr.natAbs := by
              rcases Int.natAbs_eq_zero.not.mpr h0 with h'
              omega
            simp only [hN, habs]
            omega
        rw [hEq, mul_comm]
        exact Int.sign_mul_natAbs dr
    have hNpos : 1 ≤ N := by simp [hN]
    have hNle : N ≤ 7 := by
      have b1 : df.natAbs ≤ 7 := by
        have := f₁.isLt
        have := f₂.isLt
        simp only [hdf, htf, hcf0]
        omega
      have b2 : dr.natAbs ≤ 7 := by
        have := r₁.isLt
        have := r₂.isLt
        simp only [hdr, htr, hcr0]
        omega
      simp only [hN]
      omega
    have heq : ipbRun fuel (mkSquare f₁ r₁) (mkSquare f₂ r₂) pos =
        ipbLoop pos (some tf) (some tr) (Int.sign df) (Int.sign dr) fuel
          (some (cf0 + Int.sign df)) (some (cr0 + Int.sign dr)) := by
      simp only [ipbRun, hf1, hf2, hr1, hr2, jsStep, optAddI, hcf0, hcr0, htf, htr,
        hdf, hdr]
    rw [heq]
    refine ipbLoop_reaches (N - 1) fuel (cf0 + Int.sign df) (cr0 + Int.sign dr)
      tf tr (Int.sign df) (Int.sign dr) pos ?_ ?_ (by omega)
    · have : ((N - 1 : Nat) : Int) = (N : Int) - 1 := by
        omega
      rw [this]
      linear_combination hNf
    · have : ((N - 1 : Nat) : Int) = (N : Int) - 1 := by
        omega
      rw [this]
      linear_combination hNr
  exact ⟨main ipbFuel (by norm_num [ipbFuel]), ⟨8, main 8 (le_refl 8)⟩⟩

/-- Witness for the amended C8: the aligned pair a1, a8 on the empty board. -/
theorem C8_amended_witness :
    (ipbRun ipbFuel (mkSquare 0 0) (mkSquare 0 7) []).isSome = true ∧
    TerminatesBetween (mkSquare 0 0) (mkSquare 0 7) [] :=
  C8_amended 0 0 0 7 [] (Or.inl rfl)

/-- C7 fails as stated: the record parser's tokenizer does change tokens —
it rewrites a leading letter in R,D,T,F,C (case-insensitively) through the
French-to-standard piece map, so the plain pawn move d4 becomes q4. -/
theorem C7_counterexample :
    FENParser.parseMoves (str "d4") = [str "q4"] ∧ str "q4" ≠ str "d4" := by
  decide

theorem rankFileSum_cons (c : Char) (rest : Str) :
    rankFileSum (c :: rest) =
      (if c.isDigit then c.toNat - 48 else 1) + rankFileSum rest := by
  simp [rankFileSum]

theorem jsCharNum_none_iff (c : Char) :
    jsCharNum c = none ↔ (c.isDigit = false ∧ isWsChar c = false) := by
  unfold jsCharNum
  split_ifs <;> simp_all

theorem frenchPieceFor_isSome (c : Char) (h : isFrenchPiece c = true) :
    ∃ p, frenchPieceFor c = some p := by
  simp only [isFrenchPiece, List.contains, List.elem_eq_mem, List.mem_cons,
    decide_eq_true_eq, List.not_mem_nil, or_false] at h
  rcases h with rfl | rfl | rfl | rfl | rfl | rfl | rfl | rfl | rfl | rfl | rfl | rfl <;>
    exact ⟨_, rfl⟩

theorem codeValidChar_ws (fr : Bool) (c : Char) (h : isWsChar c = true) :
    codeValidChar fr c = false := by
  simp only [isWsChar, Bool.or_eq_true, decide_eq_true_eq] at h
  rcases h with ((rfl | rfl) | rfl) | rfl <;> cases fr <;> decide

/-- A rank whose cursor has been poisoned to NaN can never finish cleanly:
no comparison against NaN succeeds, so the final length check fails. -/
theorem parseRankChars_nan : ∀ (fr : Bool) (row : Nat) (chars : Str)
    (acc : PositionMap), (parseRankChars fr row chars none acc).isOk = false := by
  intro fr row chars
  induction chars with
  | nil => intro acc; rfl
  | cons c rest ih =>
      intro acc
      unfold parseRankChars
      by_cases hn : jsCharNum c = none
      · rw [if_pos hn, if_neg (by simp [cursorGe8])]
        by_cases hfr : (fr && isFrenchPiece c) = true
        · rw [if_pos hfr]
          cases hp : frenchPieceFor c with
          | some p => exact ih _
          | none => rfl
        · rw [if_neg (by simpa using hfr)]
          cases hp : stdPieceFor c with
          | some p => exact ih _
          | none => rfl
      · rw [if_neg hn, if_neg (by simp [cursorOver8])]
        exact ih _

/-- The per-rank loop succeeds exactly when every character is one the
decoder accepts and the file counts sum to exactly 8 (offset by the cursor's
starting value). -/
theorem parseRankChars_ok_iff : ∀ (fr : Bool) (row : Nat) (chars : Str) (n : Nat)
    (acc : PositionMap), n ≤ 8 →
    ((parseRankChars fr row chars (some n) acc).isOk = true ↔
      (∀ c ∈ chars, codeValidChar fr c = true) ∧ n + rankFileSum chars = 8) := by
  intro fr row chars
  induction chars with
  | nil =>
      intro n acc _
      constructor
      · intro h
        by_cases h8 : (some n : Option Nat) = some 8
        · refine ⟨by simp, ?_⟩
          simp only [Option.some_inj] at h8
          simp [rankFileSum, h8]
        · rw [show parseRankChars fr row [] (some n) acc =
              .error "Invalid FEN: rank is incorrect length" from by
                unfold parseRankChars; rw [if_neg h8]] at h
          simp [Except.isOk, Except.toBool] at h
      · rintro ⟨_, hsum⟩
        have h8 : n = 8 := by simpa [rankFileSum] using hsum
        subst h8
        rfl
  | cons c rest ih =>
      intro n acc hn
      rw [rankFileSum_cons, List.forall_mem_cons]
      by_cases hn0 : jsCharNum c = none
      · obtain ⟨hdig, hws⟩ := (jsCharNum_none_iff c).mp hn0
        have hv : codeValidChar fr c =
            (if fr && isFrenchPiece c then true else (stdPieceFor c).isSome) := by
          simp [codeValidChar, hdig]
        by_cases h8 : 8 ≤ n
        · have hLHS : (parseRankChars fr row (c :: rest) (some n) acc).isOk = false := by
            unfold parseRankChars
            rw [if_pos hn0, if_pos (by simp [cursorGe8]; omega)]
            rfl
          rw [hLHS]
          simp only [Bool.false_eq_true, false_iff]
          rintro ⟨_, hsum⟩
          rw [if_neg (by simp [hdig])] at hsum
          omega
        · have hge : cursorGe8 (some n) = false := by simp [cursorGe8]; omega
          by_cases hfr : (fr && isFrenchPiece c) = true
          · obtain ⟨p, hp⟩ := frenchPieceFor_isSome c (by
              rcases Bool.and_eq_true_iff.mp hfr with ⟨_, h⟩; exact h)
            have hstep : parseRankChars fr row (c :: rest) (some n) acc =
                parseRankChars fr row rest (some (n + 1))
                  (jsAssign acc (coordsToAlgebraicJS row (some n)) p) := by
              conv_lhs => unfold parseRankChars
              rw [if_pos hn0, if_neg (by simp [hge]), if_pos hfr, hp]
              rfl
            rw [hstep, ih (n + 1) _ (by omega), hv, if_pos hfr]
            constructor
            · rintro ⟨hall, hsum⟩
              refine ⟨⟨rfl, hall⟩, ?_⟩
              rw [if_neg (by simp [hdig])]
              omega
            · rintro ⟨⟨_, hall⟩, hsum⟩
              rw [if_neg (by simp [hdig])] at hsum
              exact ⟨hall, by omega⟩
          · have hfr' : (fr && isFrenchPiece c) = false := by simpa using hfr
            cases hp : stdPieceFor c with
            | some p =>
                have hstep : parseRankChars fr row (c :: rest) (some n) acc =
                    parseRankChars fr row rest (some (n + 1))
                      (jsAssign acc (coordsToAlgebraicJS row (some n)) p) := by
                  conv_lhs => unfold parseRankChars
                  rw [if_pos hn0, if_neg (by simp [hge]), if_neg (by simp [hfr']), hp]
                  rfl
                rw [hstep, ih (n + 1) _ (by omega), hv, if_neg (by simp [hfr'])]
                constructor
                · rintro ⟨hall, hsum⟩
                  refine ⟨⟨by simp [hp], hall⟩, ?_⟩
                  rw [if_neg (by simp [hdig])]
                  omega
                · rintro ⟨⟨_, hall⟩, hsum⟩
                  rw [if_neg (by simp [hdig])] at hsum
                  exact ⟨hall, by omega⟩
            | none =>
                have hLHS : (parseRankChars fr row (c :: rest) (some n) acc).isOk = false := by
                  unfold parseRankChars
                  rw [if_pos hn0, if_neg (by simp [hge]), if_neg (by simp [hfr']), hp]
                  rfl
                rw [hLHS]
                simp only [Bool.false_eq_true, false_iff]
                rintro ⟨⟨hc, _⟩, _⟩
                rw [hv, if_neg (by simp [hfr']), hp] at hc
                simp at hc
      · have hsome : ∃ v, jsCharNum c = some v := by
          cases h : jsCharNum c with
          | none => exact absurd h hn0
          | some v => exact ⟨v, rfl⟩
        by_cases hdig : c.isDigit
        · have hval : jsParseIntChar c = some (c.toNat - 48) := by
            simp [jsParseIntChar, hdig]
          by_cases hover : 8 < n + (c.toNat - 48)
          · have hLHS : (parseRankChars fr row (c :: rest) (some n) acc).isOk = false := by
              unfold parseRankChars
              rw [if_neg hn0, if_pos (by simp [cursorOver8, hval]; omega)]
              rfl
            rw [hLHS]
            simp only [Bool.false_eq_true, false_iff]
            rintro ⟨_, hsum⟩
            rw [if_pos hdig] at hsum
            omega
          · have hstep : parseRankChars fr row (c :: rest) (some n) acc =
                parseRankChars fr row rest (some (n + (c.toNat - 48))) acc := by
              conv_lhs => unfold parseRankChars
              rw [if_neg hn0, if_neg (by simp [cursorOver8, hval]; omega)]
              rw [hval]
              rfl
            rw [hstep, ih (n + (c.toNat - 48)) _ (by omega)]
            constructor
            · rintro ⟨hall, hsum⟩
              refine ⟨⟨by simp [codeValidChar, hdig], hall⟩, ?_⟩
              rw [if_pos hdig]
              omega
            · rintro ⟨⟨_, hall⟩, hsum⟩
              rw [if_pos hdig] at hsum
              exact ⟨hall, by omega⟩
        · have hws : isWsChar c = true := by
            by_cases h : isWsChar c
            · exact h
            · exact absurd ((jsCharNum_none_iff c).mpr
                ⟨by simpa using hdig, by simpa using h⟩) hn0
          have hval : jsParseIntChar c = none := by
            simp [jsParseIntChar, hdig]
          have hstep : parseRankChars fr row (c :: rest) (some n) acc =
              parseRankChars fr row rest none acc := by
            conv_lhs => unfold parseRankChars
            rw [if_neg hn0, if_neg (by simp [cursorOver8, hval])]
            rw [hval]
            rfl
          rw [hstep, parseRankChars_nan]
          simp only [Bool.false_eq_true, false_iff]
          rintro ⟨⟨hc, _⟩, _⟩
          rw [codeValidChar_ws fr c hws] at hc
          simp at hc

/-- The rank loop over all ranks succeeds exactly when every rank does;
success of a rank does not depend on the accumulated position. -/
theorem parseRanksAux_ok_iff : ∀ (fr : Bool) (ranks : List Str) (row : Nat)
    (acc : PositionMap),
    ((parseRanksAux fr ranks row acc).isOk = true ↔
      ∀ r ∈ ranks, (∀ c ∈ r, codeValidChar fr c = true) ∧ rankFileSum r = 8) := by
  intro fr ranks
  induction ranks with
  | nil =>
      intro row acc
      constructor
      · intro _ r hr
        simp at hr
      · intro _
        rfl
  | cons r rest ih =>
      intro row acc
      rw [List.forall_mem_cons]
      cases hr : parseRankChars fr row r (some 0) acc with
      | ok acc' =>
          have h1 : (parseRankChars fr row r (some 0) acc).isOk = true := by
            rw [hr]; rfl
          rw [parseRankChars_ok_iff fr row r 0 acc (by omega)] at h1
          have hstep : parseRanksAux fr (r :: rest) row acc =
              parseRanksAux fr rest (row + 1) acc' := by
            conv_lhs => unfold parseRanksAux
            rw [hr]
          rw [hstep, ih (row + 1) acc']
          constructor
          · intro hall
            exact ⟨⟨h1.1, by simpa using h1.2⟩, hall⟩
          · rintro ⟨_, hall⟩
            exact hall
      | error e =>
          have hstep : parseRanksAux fr (r :: rest) row acc = .error e := by
            unfold parseRanksAux
            rw [hr]
          rw [hstep]
          constructor
          · intro h
            simp [Except.isOk, Except.toBool] at h
          · rintro ⟨⟨hall, hsum⟩, _⟩
            have h2 : (parseRankChars fr row r (some 0) acc).isOk = true :=
              (parseRankChars_ok_iff fr row r 0 acc (by omega)).mpr
                ⟨hall, by simpa using hsum⟩
            rw [hr] at h2
            simp [Except.isOk, Except.toBool] at h2

theorem wsTokensAux_token : ∀ (t rest acc : Str),
    (∀ c ∈ t, isWsChar c = false) →
    wsTokensAux (t ++ rest) acc = wsTokensAux rest (t.reverse ++ acc) := by
  intro t
  induction t with
  | nil => intro rest acc _; simp
  | cons c t' ih =>
      intro rest acc h
      have hc : isWsChar c = false := h c (by simp)
      simp only [List.cons_append, wsTokensAux, hc, Bool.false_eq_true, if_false]
      rw [show (t'.append rest) = t' ++ rest from rfl,
        ih rest (c :: acc) (fun a ha => h a (by simp [ha]))]
      simp

/-- Splitting a single-space join of non-empty whitespace-free tokens gives
back exactly those tokens. -/
theorem wsTokens_joinSpace : ∀ toks : List Str,
    (∀ t ∈ toks, t ≠ [] ∧ ∀ c ∈ t, isWsChar c = false) →
    wsTokens (joinSpace toks) = toks := by
  intro toks
  induction toks with
  | nil => intro _; rfl
  | cons t rest ih =>
      intro h
      obtain ⟨hne, hnws⟩ := h t (by simp)
      cases rest with
      | nil =>
          show wsTokensAux (joinSpace [t]) [] = [t]
          have htok := wsTokensAux_token t [] [] hnws
          simp only [List.append_nil] at htok
          simp only [joinSpace]
          rw [htok]
          simp [wsTokensAux, hne]
      | cons t2 rest' =>
          show wsTokensAux (joinSpace (t :: t2 :: rest')) [] = t :: t2 :: rest'
          have hj : joinSpace (t :: t2 :: rest') = t ++ ' ' :: joinSpace (t2 :: rest') := rfl
          rw [hj, wsTokensAux_token t (' ' :: joinSpace (t2 :: rest')) [] hnws,
            List.append_nil]
          have hstep : wsTokensAux (' ' :: joinSpace (t2 :: rest')) t.reverse =
              if t.reverse = [] then wsTokensAux (joinSpace (t2 :: rest')) []
              else t.reverse.reverse :: wsTokensAux (joinSpace (t2 :: rest')) [] := rfl
          rw [hstep, if_neg (by simpa using hne), List.reverse_reverse]
          exact congrArg (t :: ·) (ih (fun u hu => h u (by simp [hu])))

theorem stripDDAux_no_dot : ∀ (l run : Str), '.' ∉ l →
    stripDDAux l run = run.reverse ++ l := by
  intro l
  induction l with
  | nil => intro run _; simp [stripDDAux]
  | cons c rest ih =>
      intro run h
      have hc : c ≠ '.' := fun he => h (he ▸ List.mem_cons_self c rest)
      have hrest : ('.' : Char) ∉ rest := fun hm => h (List.mem_cons_of_mem c hm)
      by_cases hd : c.isDigit
      · simp only [stripDDAux, hd, if_true]
        rw [ih (c :: run) hrest]
        simp
      · simp only [stripDDAux, hd, Bool.false_eq_true, if_false]
        rw [if_neg (by simp [hc]), ih [] hrest]
        simp

/-- A string without dots is untouched by the global move-number strip. -/
theorem stripDigitDotAll_no_dot (l : Str) (h : '.' ∉ l) :
    stripDigitDotAll l = l := by
  simpa using stripDDAux_no_dot l [] h

/-- A token without dots is untouched by the per-token move-number strip. -/
theorem stripDigitDotPrefix_no_dot : ∀ t : Str, '.' ∉ t →
    stripDigitDotPrefix t = t := by
  intro t h
  match t with
  | [] => rfl
  | c :: rest =>
      simp only [stripDigitDotPrefix]
      by_cases hd : c.isDigit
      · simp only [hd, if_true]
        cases hdw : rest.dropWhile Char.isDigit with
        | nil => rfl
        | cons d tail =>
            have hdm : d ∈ rest := by
              have : d ∈ rest.dropWhile Char.isDigit := by
                rw [hdw]; exact List.mem_cons_self d tail
              exact (List.dropWhile_sublist _).subset this
            have hne : d ≠ '.' := by
              rintro rfl
              exact h (List.mem_cons_of_mem c hdm)
            show (if d = '.' then tail else (c :: rest)) = c :: rest
            rw [if_neg hne]
      · simp [hd]

theorem joinSpace_ne_nil (t : Str) (rest : List Str) (ht : t ≠ []) :
    joinSpace (t :: rest) ≠ [] := by
  cases rest with
  | nil => simpa [joinSpace] using ht
  | cons t2 rest' =>
      rw [show joinSpace (t :: t2 :: rest') = t ++ ' ' :: joinSpace (t2 :: rest') from rfl]
      simp

theorem joinSpace_head? (t : Str) (rest : List Str) (ht : t ≠ []) :
    (joinSpace (t :: rest)).head? = t.head? := by
  cases rest with
  | nil => rfl
  | cons t2 rest' =>
      cases t with
      | nil => exact absurd rfl ht
      | cons c t' => rfl

theorem joinSpace_getLast?_no_ws : ∀ toks : List Str,
    (∀ t ∈ toks, t ≠ [] ∧ ∀ c ∈ t, isWsChar c = false) →
    ∀ lst, (joinSpace toks).getLast? = some lst → isWsChar lst = false := by
  intro toks
  induction toks with
  | nil => intro _ lst hl; simp [joinSpace] at hl
  | cons t rest ih =>
      intro h lst hl
      obtain ⟨hne, hws⟩ := h t (by simp)
      cases rest with
      | nil =>
          exact hws lst (List.mem_of_mem_getLast? (by simp [joinSpace] at hl ⊢; exact hl))
      | cons t2 rest' =>
          have hj : joinSpace (t :: t2 :: rest') = t ++ ' ' :: joinSpace (t2 :: rest') := rfl
          rw [hj, List.getLast?_append_of_ne_nil _ (by simp)] at hl
          have hJne : joinSpace (t2 :: rest') ≠ [] :=
            joinSpace_ne_nil t2 rest' (h t2 (by simp)).1
          rw [show (' ' :: joinSpace (t2 :: rest')).getLast? =
              (joinSpace (t2 :: rest')).getLast? from ?_] at hl
          · exact ih (fun u hu => h u (by simp [hu])) lst hl
          · cases hJ : joinSpace (t2 :: rest') with
            | nil => exact absurd hJ hJne
            | cons d J' => simp

/-- Trimming a single-space join of non-empty whitespace-free tokens changes
nothing. -/
theorem trimWs_joinSpace (toks : List Str)
    (h : ∀ t ∈ toks, t ≠ [] ∧ ∀ c ∈ t, isWsChar c = false) :
    trimWs (joinSpace toks) = joinSpace toks := by
  cases toks with
  | nil => rfl
  | cons t rest =>
      obtain ⟨hne, hws⟩ := h t (by simp)
      unfold trimWs
      have hhd : ∀ hd, (joinSpace (t :: rest)).head? = some hd → isWsChar hd = false := by
        intro hd hh
        rw [joinSpace_head? t rest hne] at hh
        exact hws hd (List.mem_of_mem_head? (by simp [hh]))
      cases hJ : joinSpace (t :: rest) with
      | nil => rfl
      | cons c J' =>
          have hc : isWsChar c = false := hhd c (by rw [hJ]; rfl)
          rw [List.dropWhile_cons_of_neg (by simp [hc])]
          have hlast : ∀ lst, (c :: J').getLast? = some lst → isWsChar lst = false := by
            intro lst hlst
            exact joinSpace_getLast?_no_ws (t :: rest) h lst (by rw [hJ]; exact hlst)
          cases hrev : (c :: J').reverse with
          | nil => simp at hrev
          | cons d R' =>
              have hd : (c :: J').getLast? = some d := by
                rw [← List.head?_reverse, hrev]; rfl
              rw [List.dropWhile_cons_of_neg (by simp [hlast d hd])]
              rw [← hrev, List.reverse_reverse]

/-- The dots of a token list: no token contains a dot. -/
theorem no_dot_joinSpace (toks : List Str)
    (h : ∀ t ∈ toks, '.' ∉ t) : '.' ∉ joinSpace toks := by
  induction toks with
  | nil => simp [joinSpace]
  | cons t rest ih =>
      cases rest with
      | nil => simpa [joinSpace] using h t (by simp)
      | cons t2 rest' =>
          have hj : joinSpace (t :: t2 :: rest') = t ++ ' ' :: joinSpace (t2 :: rest') := rfl
          rw [hj]
          intro hmem
          rcases List.mem_append.mp hmem with hm | hm
          · exact h t (by simp) hm
          · rcases List.mem_cons.mp hm with hm' | hm'
            · exact absurd hm' (by decide)
            · exact ih (fun u hu => h u (by simp [hu])) hm'

/-- C7 amended: the third variant's tokenizer returns whitespace-separated
tokens in order, unchanged (for dot-free tokens, the move-number strip is
the identity); the record parser's tokenizer additionally applies
`convertMoveToStandard` to every token, rewriting a leading French piece
letter case-insensitively — a semantic change (e.g. d4 to q4). -/
theorem C7_amended : ∀ toks : List Str,
    (∀ t ∈ toks, t ≠ [] ∧ (∀ c ∈ t, isWsChar c = false) ∧ '.' ∉ t) →
    ChessRules.parseMoves (joinSpace toks) = toks ∧
    FENParser.parseMoves (joinSpace toks) = toks.map convertMoveToStandard := by
  intro toks h
  have hclean : ∀ t ∈ toks, t ≠ [] ∧ ∀ c ∈ t, isWsChar c = false :=
    fun t ht => ⟨(h t ht).1, (h t ht).2.1⟩
  have hdots : '.' ∉ joinSpace toks := no_dot_joinSpace toks (fun t ht => (h t ht).2.2)
  cases htk : toks with
  | nil =>
      subst htk
      exact ⟨rfl, rfl⟩
  | cons t0 rest0 =>
      subst htk
      have hjne : joinSpace (t0 :: rest0) ≠ [] :=
        joinSpace_ne_nil t0 rest0 (hclean t0 (by simp)).1
      constructor
      · unfold ChessRules.parseMoves
        rw [if_neg hjne, stripDigitDotAll_no_dot _ hdots,
          trimWs_joinSpace _ hclean]
        unfold jsSplitWsTrimmed
        rw [if_neg hjne, wsTokens_joinSpace _ hclean]
        apply List.filter_eq_self.mpr
        intro t ht
        simpa using (hclean t ht).1
      · unfold FENParser.parseMoves
        rw [if_neg hjne]
        have e1 : wsTokens (joinSpace (t0 :: rest0)) = t0 :: rest0 :=
          wsTokens_joinSpace _ hclean
        have e2 : (t0 :: rest0).map (fun m => trimWs (stripDigitDotPrefix m)) =
            t0 :: rest0 := by
          have hpt : ∀ t ∈ t0 :: rest0, trimWs (stripDigitDotPrefix t) = t := by
            intro t ht
            rw [stripDigitDotPrefix_no_dot t (h t ht).2.2]
            have := trimWs_joinSpace [t] (by
              intro u hu
              have hut : u = t := List.mem_singleton.mp hu
              rw [hut]
              exact hclean t ht)
            simpa [joinSpace] using this
          calc (t0 :: rest0).map (fun m => trimWs (stripDigitDotPrefix m))
              = (t0 :: rest0).map id := List.map_congr_left (fun a ha => hpt a ha)
            _ = t0 :: rest0 := List.map_id _
        have e3 : (t0 :: rest0).filter (fun m => decide (m ≠ [])) = t0 :: rest0 :=
          List.filter_eq_self.mpr (fun t ht => by simpa using (hclean t ht).1)
        simp only [e1, e2, e3]
        rfl

/-- Witness for the amended C7, on the token list e4, Cf3, O-O, d4: the
third variant passes all four through; the record parser converts Cf3 to
Nf3 and d4 to q4 while leaving e4 and O-O alone. -/
theorem C7_amended_witness :
    ChessRules.parseMoves (joinSpace [str "e4", str "Cf3", str "O-O", str "d4"]) =
      [str "e4", str "Cf3", str "O-O", str "d4"] ∧
    FENParser.parseMoves (joinSpace [str "e4", str "Cf3", str "O-O", str "d4"]) =
      [str "e4", str "Nf3", str "O-O", str "q4"] := by
  have h := C7_amended [str "e4", str "Cf3", str "O-O", str "d4"] (by decide)
  exact ⟨h.1, by rw [h.2]; decide⟩

/-- JS `trim` is the identity on a string whose first and last characters
are not whitespace. -/
theorem trimWs_eq_self (l : Str)
    (h1 : ∀ hd, l.head? = some hd → isWsChar hd = false)
    (h2 : ∀ lst, l.getLast? = some lst → isWsChar lst = false) :
    trimWs l = l := by
  cases l with
  | nil => rfl
  | cons c t =>
      have hc : isWsChar c = false := h1 c rfl
      unfold trimWs
      rw [List.dropWhile_cons_of_neg (by simp [hc])]
      cases hrev : (c :: t).reverse with
      | nil => simp at hrev
      | cons d rest' =>
          have hd : (c :: t).getLast? = some d := by
            rw [← List.head?_reverse, hrev]
            rfl
          rw [List.dropWhile_cons_of_neg (by simp [h2 d hd]), ← hrev,
            List.reverse_reverse]

/-- C5 amended: decoding succeeds exactly when the section has 8
slash-separated ranks, every character is a digit 0-9 or a piece letter the
selected alphabet branch recognises, and each rank's file counts sum to
exactly 8 — the digit 0 is accepted as a zero-width empty run, contrary to
the claim's digit-1-8 wording; failure is surfaced through the record
parser's validity flag. -/
theorem C5_amended : ∀ b : Str,
    ((parsePosition b).isOk = true ↔ CodeWellFormedBoard b) ∧
    (b ≠ [] → (∀ c ∈ b, isWsChar c = false) →
      searchDigitDot (b ++ str " w - -") = none →
      (FENParser.parseFEN (b ++ str " w - -")).isValid = (parsePosition b).isOk) := by
  intro b
  constructor
  · have hpp : parsePosition b =
        if (jsSplit '/' b).length ≠ 8 then
          Except.error "Invalid FEN: must have 8 ranks"
        else parseRanksAux (isFrenchFENNotation b) (jsSplit '/' b) 0 [] := rfl
    rw [hpp]
    by_cases hlen : (jsSplit '/' b).length = 8
    · rw [if_neg (by simp [hlen])]
      rw [parseRanksAux_ok_iff]
      exact ⟨fun h => ⟨hlen, h⟩, fun h => h.2⟩
    · rw [if_pos (by simpa using hlen)]
      constructor
      · intro h
        simp [Except.isOk, Except.toBool] at h
      · intro h
        exact absurd h.1 hlen
  · intro hne hnws hsearch
    obtain ⟨c0, btail, rfl⟩ : ∃ c0 btail, b = c0 :: btail := by
      cases b with
      | nil => exact absurd rfl hne
      | cons c0 t => exact ⟨c0, t, rfl⟩
    have htrim : trimWs ((c0 :: btail) ++ str " w - -") = (c0 :: btail) ++ str " w - -" := by
      apply trimWs_eq_self
      · intro hd hh
        have : hd = c0 := by simpa using hh.symm
        rw [this]
        exact hnws c0 (by simp)
      · intro lst hl
        rw [List.getLast?_append_of_ne_nil _ (by simp [str])] at hl
        rw [show (str " w - -").getLast? = some '-' from rfl] at hl
        have : lst = '-' := by simpa using hl.symm
        rw [this]
        rfl
    have hjoin : (c0 :: btail) ++ str " w - -" =
        joinSpace [c0 :: btail, str "w", str "-", str "-"] := rfl
    have htoks : wsTokens ((c0 :: btail) ++ str " w - -") =
        [c0 :: btail, str "w", str "-", str "-"] := by
      rw [hjoin]
      apply wsTokens_joinSpace
      intro t ht
      simp only [List.mem_cons, List.not_mem_nil, or_false] at ht
      rcases ht with rfl | rfl | rfl | rfl
      · exact ⟨by simp, hnws⟩
      · exact ⟨by decide, by decide⟩
      · exact ⟨by decide, by decide⟩
      · exact ⟨by decide, by decide⟩
    have hs_ne : (c0 :: btail) ++ str " w - -" ≠ [] := by simp
    unfold FENParser.parseFEN
    simp only [hsearch, htrim, jsSplitWsTrimmed, hs_ne, if_false, htoks]
    cases hp : parsePosition ((c0 :: btail) ++ str " w - -") with
    | ok p =>
        -- the board field handed to parsePosition is the first token, b itself
        simp only [List.length_cons, List.length_nil, List.getD]
        cases hp2 : parsePosition (c0 :: btail) with
        | ok q => simp [hp2, Except.isOk, Except.toBool]
        | error e => simp [hp2, Except.isOk, Except.toBool]
    | error e =>
        simp only [List.length_cons, List.length_nil, List.getD]
        cases hp2 : parsePosition (c0 :: btail) with
        | ok q => simp [hp2, Except.isOk, Except.toBool]
        | error e2 => simp [hp2, Except.isOk, Except.toBool]

/-- Looking up a key that an entry of a duplicate-free position map carries
returns that entry's piece. -/
theorem jsGet_of_mem_nodup : ∀ (pos : PositionMap) (kv : Str × StandardPiece),
    kv ∈ pos → (pos.map Prod.fst).Nodup → jsGet pos kv.1 = some kv.2 := by
  intro pos
  induction pos with
  | nil => intro kv h _; simp at h
  | cons hd tl ih =>
      intro kv hmem hnd
      rw [List.map_cons, List.nodup_cons] at hnd
      by_cases hh : hd.1 = kv.1
      · have hkv : kv = hd := by
          rcases List.mem_cons.mp hmem with h | h
          · exact h
          · exfalso
            apply hnd.1
            rw [hh]
            exact List.mem_map.mpr ⟨kv, h, rfl⟩
        subst hkv
        unfold jsGet
        rw [List.find?_cons_of_pos _ (by simp)]
      · have htl : kv ∈ tl := by
          rcases List.mem_cons.mp hmem with h | h
          · exact absurd (congrArg Prod.fst h.symm) hh
          · exact h
        unfold jsGet
        rw [List.find?_cons_of_neg _ (by simpa using hh)]
        exact ih kv htl hnd.2

/-- Soundness of the candidate search: a returned MoveDetail names a square
that really holds the sought piece, and a move `isLegalMove` accepts. -/
theorem resolveCore_sound (position : PositionMap) (piece : StandardPiece)
    (disamb target : Str) (d : MoveDetail)
    (hnd : (position.map Prod.fst).Nodup)
    (h : resolveCore position piece disamb target = some d) :
    jsGet position d.fromSq = some d.piece ∧ d.piece = piece ∧
    isLegalMove d.fromSq d.toSq d.piece position = true := by
  unfold resolveCore at h
  by_cases hlen : target.length ≠ 2
  · rw [if_pos hlen] at h
    exact absurd h (by simp)
  · rw [if_neg hlen] at h
    cases hfind : (candidatesFiltered position piece disamb).find?
        (fun sq => isLegalMove sq target piece position) with
    | none =>
        rw [hfind] at h
        exact absurd h (by simp)
    | some sq =>
        rw [hfind] at h
        have h2 : some (⟨sq, target, piece, none⟩ : MoveDetail) = some d := h
        have hd : d = (⟨sq, target, piece, none⟩ : MoveDetail) := by
          injection h2 with h'
          exact h'.symm
        subst hd
        have hpred := List.find?_some hfind
        have hmem := List.mem_of_find?_eq_some hfind
        have hmem2 : sq ∈ candidateSquares position piece := by
          unfold candidatesFiltered at hmem
          by_cases hdis : disamb ≠ []
          · rw [if_pos hdis] at hmem
            exact List.mem_of_mem_filter hmem
          · rw [if_neg hdis] at hmem
            exact hmem
        unfold candidateSquares at hmem2
        rw [List.mem_map] at hmem2
        obtain ⟨kv, hkvmem, hkv1⟩ := hmem2
        have hkvpos : kv ∈ position := List.mem_of_mem_filter hkvmem
        have hkv2 : kv.2 = piece := by
          have := List.of_mem_filter hkvmem
          simpa using this
        refine ⟨?_, rfl, by simpa using hpred⟩
        show jsGet position sq = some piece
        rw [← hkv1, ← hkv2]
        exact jsGet_of_mem_nodup position kv hkvpos hnd

theorem isWhitePiece_pieceForChar (pc : Char) (w : Bool) :
    isWhitePiece (pieceForChar pc w) = w := by
  cases w <;> unfold pieceForChar <;> split_ifs <;> first | contradiction | rfl

/-- C10: away from the castling tokens, a successful resolution always
returns a move detail whose from-square really holds the returned piece,
that piece belongs to the active colour, and the simplified legality check
accepts the move.  The position is assumed duplicate-key-free, as every JS
object is. -/
theorem C10_resolver_soundness :
    ∀ (position : PositionMap) (move : Str) (isWhiteTurn : Bool) (d : MoveDetail),
      (position.map Prod.fst).Nodup →
      move ≠ str "O-O" → move ≠ str "O-O-O" →
      findPieceForMove position move isWhiteTurn = some d →
      jsGet position d.fromSq = some d.piece ∧
      isWhitePiece d.piece = isWhiteTurn ∧
      isLegalMove d.fromSq d.toSq d.piece position = true := by
  intro position move w d hnd h1 h2 hres
  unfold findPieceForMove at hres
  rw [if_neg (by simp [h1, h2])] at hres
  generalize normalizeMove move = cm at hres
  have hfinP : ∀ dis tgt : Str,
      resolveCore position (if w then WhitePawn else BlackPawn) dis tgt = some d →
      jsGet position d.fromSq = some d.piece ∧ isWhitePiece d.piece = w ∧
      isLegalMove d.fromSq d.toSq d.piece position = true := by
    intro dis tgt hrc
    obtain ⟨hg, hp, hl⟩ := resolveCore_sound position _ dis tgt d hnd hrc
    refine ⟨hg, ?_, hl⟩
    rw [hp]
    cases w <;> rfl
  cases cm with
  | nil =>
      simp only [classifyAndResolve] at hres
      exact hfinP _ _ hres
  | cons pc rest =>
      simp only [classifyAndResolve] at hres
      by_cases hkq : (['K', 'Q', 'R', 'B', 'N'].contains pc) = true
      · rw [if_pos hkq] at hres
        have hfin : ∀ dis tgt : Str,
            resolveCore position (pieceForChar pc w) dis tgt = some d →
            jsGet position d.fromSq = some d.piece ∧ isWhitePiece d.piece = w ∧
            isLegalMove d.fromSq d.toSq d.piece position = true := by
          intro dis tgt hrc
          obtain ⟨hg, hp, hl⟩ := resolveCore_sound position _ dis tgt d hnd hrc
          refine ⟨hg, ?_, hl⟩
          rw [hp]
          exact isWhitePiece_pieceForChar pc w
        by_cases hx : rest.contains 'x' = true
        · rw [if_pos hx] at hres
          exact hfin _ _ hres
        · rw [if_neg (by simpa using hx)] at hres
          by_cases hl2 : rest.length > 2
          · rw [if_pos hl2] at hres
            exact hfin _ _ hres
          · rw [if_neg hl2] at hres
            exact hfin _ _ hres
      · rw [if_neg (by simpa using hkq)] at hres
        by_cases hx : ((pc :: rest).contains 'x') = true
        · rw [if_pos hx] at hres
          exact hfinP _ _ hres
        · rw [if_neg (by simpa using hx)] at hres
          exact hfinP _ _ hres

/-- Witness for C10: resolving e4 on a one-pawn board returns the pawn's
double step from e2, which the position and the legality check validate. -/
theorem C10_witness :
    jsGet [(str "e2", WhitePawn)] (str "e2") = some WhitePawn ∧
    isWhitePiece WhitePawn = true ∧
    isLegalMove (str "e2") (str "e4") WhitePawn [(str "e2", WhitePawn)] = true := by
  have h := C10_resolver_soundness [(str "e2", WhitePawn)] (str "e4") true
    ⟨str "e2", str "e4", WhitePawn, none⟩ (by decide) (by decide) (by decide) (by decide)
  exact h

/-- Witness for the amended C5: the standard initial board section is
well-formed and its record parses as valid. -/
theorem C5_amended_witness :
    ((parsePosition (str "rnbqkbnr/pppppppp/8/8/8/8/PPPPPPPP/RNBQKBNR")).isOk = true ↔
      CodeWellFormedBoard (str "rnbqkbnr/pppppppp/8/8/8/8/PPPPPPPP/RNBQKBNR")) ∧
    (FENParser.parseFEN (str "rnbqkbnr/pppppppp/8/8/8/8/PPPPPPPP/RNBQKBNR" ++ str " w - -")).isValid =
      (parsePosition (str "rnbqkbnr/pppppppp/8/8/8/8/PPPPPPPP/RNBQKBNR")).isOk :=
  ⟨(C5_amended (str "rnbqkbnr/pppppppp/8/8/8/8/PPPPPPPP/RNBQKBNR")).1,
   (C5_amended (str "rnbqkbnr/pppppppp/8/8/8/8/PPPPPPPP/RNBQKBNR")).2
     (by decide) (by decide) (by decide)⟩


end ChessEngine
